import Mathlib

/-!
Shallow embedding of the textractor core (`src/src-tauri/src/lib.rs`).

Text is modelled as a list of bytes (`List Nat`), matching the byte-level
processing of the Rust source (`code.as_bytes()`); Rust `String`s are byte
sequences in UTF-8.  Each definition mirrors one routine or one of the fixed
regular expressions of the source; the regexes are small enough that their
`replace_all` behaviour is given directly as a byte scanner.
-/

namespace Textractor

/-- Byte list of an ASCII Lean string literal (readability helper for
    writing concrete byte lists; only used with ASCII content). -/
def ascii (s : String) : List Nat := s.data.map Char.toNat

/-- `MAX_PROCESS_SIZE = 500 * 1024` (src line 12). -/
def MAX_PROCESS_SIZE : Nat := 500 * 1024

/-- Decimal digits, fuelled so that the definition reduces by iota (the fuel
    `n + 1` always suffices since `n / 10 < n` for `n ≥ 10`). -/
def natDigitsAux : Nat → Nat → List Nat
  | 0, _ => []
  | fuel + 1, n =>
    if n < 10 then [48 + n] else natDigitsAux fuel (n / 10) ++ [48 + n % 10]

/-- Decimal digit bytes of a natural number, as produced by Rust
    `usize::to_string` (no sign, no leading zeros). -/
def natDigits (n : Nat) : List Nat := natDigitsAux (n + 1) n

/-- The placeholder `"\0STR" ++ idx.to_string() ++ "END\0"` built from
    `PLACEHOLDER_PREFIX`/`PLACEHOLDER_SUFFIX` (src lines 14-15, 279). -/
def placeholder (idx : Nat) : List Nat :=
  [0, 83, 84, 82] ++ natDigits idx ++ [69, 78, 68, 0]

/-- The placeholder body between its two NUL delimiters
    (`"STR" ++ digits ++ "END"`). -/
def phMid (idx : Nat) : List Nat := 83 :: 84 :: 82 :: natDigits idx ++ [69, 78, 68]

/-- Model of Rust `result.push(other as char)` (src line 263): a byte cast to
    `char` is the code point U+0000..U+00FF, and `String::push` appends its
    UTF-8 encoding - one byte below 0x80, two bytes otherwise. -/
def pushByteAsChar (b : Nat) : List Nat :=
  if b < 128 then [b] else [192 + b / 64, 128 + b % 64]

/-- The `${ ... }` brace-depth loop inside a template literal
    (src lines 195-206): consumes bytes while `depth > 0`, incrementing on
    `{` (123) and decrementing on `}` (125). -/
def scanBraces : Nat → List Nat → List Nat × List Nat
  | _, [] => ([], [])
  | depth, b :: rest =>
    if depth = 0 then ([], b :: rest)
    else
      let p := scanBraces (if b = 123 then depth + 1 else if b = 125 then depth - 1 else depth) rest
      (b :: p.1, p.2)

theorem scanBraces_append (d : Nat) (l : List Nat) :
    (scanBraces d l).1 ++ (scanBraces d l).2 = l := by
  induction l generalizing d with
  | nil => rfl
  | cons b rest ih =>
    simp only [scanBraces]
    split
    · rfl
    · simp [ih]

theorem scanBraces_snd_length (d : Nat) (l : List Nat) :
    (scanBraces d l).2.length ≤ l.length := by
  conv_rhs => rw [← scanBraces_append d l]
  simp

/-- The template-literal span scanner: the body of the `` b'`' `` arm of
    `protect_strings` (src lines 183-215), after the opening backtick has been
    consumed.  Returns the bytes of the span after the opening backtick
    (including the closing backtick when found) and the remaining input. -/
def scanTemplate : List Nat → List Nat × List Nat
  | [] => ([], [])
  | 92 :: c :: rest =>
    let p := scanTemplate rest
    (92 :: c :: p.1, p.2)
  | 36 :: 123 :: rest =>
    let p := scanBraces 1 rest
    let q := scanTemplate p.2
    (36 :: 123 :: (p.1 ++ q.1), q.2)
  | b :: rest =>
    if b = 96 then ([96], rest)
    else
      let p := scanTemplate rest
      (b :: p.1, p.2)
termination_by l => l.length
decreasing_by
  · simp only [List.length_cons]; omega
  · have := scanBraces_snd_length 1 rest
    simp only [List.length_cons]
    omega
  · simp only [List.length_cons]; omega

theorem scanTemplate_append (l : List Nat) :
    (scanTemplate l).1 ++ (scanTemplate l).2 = l := by
  induction l using scanTemplate.induct with
  | case1 => simp [scanTemplate]
  | case2 c rest ih =>
    simp only [scanTemplate]
    simpa using ih
  | case3 rest p ih =>
    have hb := scanBraces_append 1 rest
    have ih2 : (scanTemplate (scanBraces 1 rest).2).1 ++
        (scanTemplate (scanBraces 1 rest).2).2 = (scanBraces 1 rest).2 := ih
    simp only [scanTemplate]
    simp only [List.cons_append, List.append_assoc, List.cons.injEq, true_and]
    rw [ih2, hb]
  | case4 rest h1 h2 =>
    simp [scanTemplate]
  | case5 b rest h1 h2 h3 ih =>
    simp only [scanTemplate]
    rw [if_neg h3]
    simpa using ih

theorem scanTemplate_snd_length (l : List Nat) :
    (scanTemplate l).2.length ≤ l.length := by
  conv_rhs => rw [← scanTemplate_append l]
  simp

/-- The quote-literal span scanner: body of the `b'"'` / `b'\''` arms of
    `protect_strings` (src lines 216-261) after the opening quote: consume
    until the unescaped closing quote `q` (inclusive) or stop in front of a
    newline; an escape `\x` skips two bytes when a byte follows. -/
def scanQuote (q : Nat) : List Nat → List Nat × List Nat
  | [] => ([], [])
  | 92 :: c :: rest =>
    let p := scanQuote q rest
    (92 :: c :: p.1, p.2)
  | b :: rest =>
    if b = q then ([b], rest)
    else if b = 10 then ([], b :: rest)
    else
      let p := scanQuote q rest
      (b :: p.1, p.2)

theorem scanQuote_append (q : Nat) (l : List Nat) :
    (scanQuote q l).1 ++ (scanQuote q l).2 = l := by
  induction l using scanQuote.induct q with
  | case1 => simp [scanQuote]
  | case2 c rest ih =>
    simp only [scanQuote]
    simpa using ih
  | case3 rest h =>
    rw [scanQuote.eq_def]
    split
    · simp_all
    · rename_i c rest1 heq
      rw [List.cons.injEq] at heq
      exact absurd heq.2 (fun hx => h c rest1 heq.1 hx)
    · rename_i b rest2 heq
      rw [List.cons.injEq] at heq
      obtain ⟨ha, hb⟩ := heq
      subst ha hb
      rw [if_pos rfl]
      simp
  | case4 rest h1 h2 =>
    rw [scanQuote.eq_def]
    split
    · simp_all
    · rename_i c rest1 heq
      rw [List.cons.injEq] at heq
      exact absurd heq.2 (fun hx => h1 c rest1 heq.1 hx)
    · rename_i b rest2 heq
      rw [List.cons.injEq] at heq
      obtain ⟨ha, hb⟩ := heq
      subst ha hb
      rw [if_neg h2, if_pos rfl]
      simp
  | case5 b rest h1 h2 h3 ih =>
    rw [scanQuote.eq_def]
    split
    · simp_all
    · rename_i c rest1 heq
      rw [List.cons.injEq] at heq
      exact absurd heq.2 (fun hx => h1 c rest1 heq.1 hx)
    · rename_i b2 rest2 heq
      rw [List.cons.injEq] at heq
      obtain ⟨ha, hb⟩ := heq
      subst ha hb
      rw [if_neg h2, if_neg h3]
      simpa using ih

theorem scanQuote_snd_length (q : Nat) (l : List Nat) :
    (scanQuote q l).2.length ≤ l.length := by
  conv_rhs => rw [← scanQuote_append q l]
  simp

/-- The main loop of `protect_strings` (src lines 175-270).  `n` is the number
    of spans already captured (`strings.len()`); returns the shielded text and
    the list of captured spans in order. -/
def protectGo : List Nat → Nat → List Nat × List (List Nat)
  | [], _ => ([], [])
  | 96 :: rest, n =>
    let p := scanTemplate rest
    let q := protectGo p.2 (n + 1)
    (placeholder n ++ q.1, (96 :: p.1) :: q.2)
  | 34 :: rest, n =>
    let p := scanQuote 34 rest
    let q := protectGo p.2 (n + 1)
    (placeholder n ++ q.1, (34 :: p.1) :: q.2)
  | 39 :: rest, n =>
    let p := scanQuote 39 rest
    let q := protectGo p.2 (n + 1)
    (placeholder n ++ q.1, (39 :: p.1) :: q.2)
  | b :: rest, n =>
    let q := protectGo rest n
    (pushByteAsChar b ++ q.1, q.2)
termination_by l _ => l.length
decreasing_by
  · have := scanTemplate_snd_length rest
    simp only [List.length_cons]
    omega
  · have := scanQuote_snd_length 34 rest
    simp only [List.length_cons]
    omega
  · have := scanQuote_snd_length 39 rest
    simp only [List.length_cons]
    omega
  · simp

/-- `protect_strings(code) -> (String, Vec<String>)` (src lines 175-270). -/
def protectStrings (code : List Nat) : List Nat × List (List Nat) :=
  protectGo code 0

/-- Rust `str::replace(needle, rp)`: replace all non-overlapping occurrences,
    scanning left to right (the `needle ≠ []` guard is only for totality; the
    needles used are placeholders, which are never empty). -/
def replaceAll (needle rp : List Nat) (l : List Nat) : List Nat :=
  match l with
  | [] => []
  | h :: t =>
    if needle ≠ [] ∧ needle.isPrefixOf (h :: t)
    then rp ++ replaceAll needle rp (List.drop needle.length (h :: t))
    else h :: replaceAll needle rp t
termination_by l.length
decreasing_by
  · rename_i hc
    have h1 : 1 ≤ needle.length := by
      cases needle with
      | nil => exact absurd rfl hc.1
      | cons x xs => simp
    simp only [List.length_drop, List.length_cons]
    omega
  · simp

/-- `restore_strings(code, strings)` (src lines 272-283): fast path on an empty
    span list, otherwise replace each placeholder by its span, in index
    order. -/
def restoreStrings (code : List Nat) (strings : List (List Nat)) : List Nat :=
  if strings = [] then code
  else (strings.enum).foldl (fun acc p => replaceAll (placeholder p.1) p.2 acc) code

/-- The restoration loop of `restore_strings` with an explicit start index:
    `restoreFrom n code spans` replaces `placeholder (n + k)` by `spans[k]`
    for `k = 0, 1, ...`, one full pass per span.  `restoreStrings code spans`
    equals `restoreFrom 0 code spans`. -/
def restoreFrom (n : Nat) (code : List Nat) : List (List Nat) → List Nat
  | [] => code
  | s :: ss => restoreFrom (n + 1) (replaceAll (placeholder n) s code) ss

/-! ## Comment-pattern scanners

Each function below is the `replace_all(_, "")` behaviour of one of the fixed
regexes of the source (src lines 45-48, 82-155, 168-173), as a byte scanner:
matches are found leftmost-first and deleted, scanning resumes after each
match (or one byte further when no match starts at the current position). -/

/-- Rest of the current line: drop bytes up to (excluding) the next
    newline - the `[^\n]*` tail of the single-line patterns. -/
def dropToNl : List Nat → List Nat
  | [] => []
  | b :: t => if b = 10 then b :: t else dropToNl t

theorem dropToNl_length (l : List Nat) : (dropToNl l).length ≤ l.length := by
  induction l with
  | nil => simp [dropToNl]
  | cons b t ih =>
    simp only [dropToNl]
    split
    · simp
    · simp only [List.length_cons]
      omega

/-- First marker of `markers` that is a prefix of `l` (regex alternation is
    tried left to right at a given position).  A marker is written as
    (head byte, tail bytes) so that it is nonempty by construction. -/
def matchMarker (markers : List (Nat × List Nat)) (l : List Nat) :
    Option (Nat × List Nat) :=
  markers.find? (fun m => (m.1 :: m.2).isPrefixOf l)

/-- `replace_all` with a single-line pattern `M[^\n]*` for a marker
    alternation `M`: wherever a marker matches, delete it together with the
    rest of the line; otherwise move one byte further. -/
def stripSingleM (markers : List (Nat × List Nat)) (l : List Nat) : List Nat :=
  match l with
  | [] => []
  | h :: t =>
    match matchMarker markers (h :: t) with
    | some m => stripSingleM markers (dropToNl (List.drop (m.2.length + 1) (h :: t)))
    | none => h :: stripSingleM markers t
termination_by l.length
decreasing_by
  · have hd := dropToNl_length (List.drop (m.2.length + 1) (h :: t))
    simp only [List.length_drop, List.length_cons] at *
    omega
  · simp

/-- Rest after the first `*/` (bytes 42 47): the closing part of the block
    comment regex `/\*[^*]*\*+(?:[^/*][^*]*\*+)*/`; `none` when no `*/`
    occurs, in which case the regex cannot match at the opening position. -/
def afterBlockClose : List Nat → Option (List Nat)
  | [] => none
  | 42 :: 47 :: t => some t
  | _ :: t => afterBlockClose t

theorem afterBlockClose_length (l : List Nat) :
    ∀ r, afterBlockClose l = some r → r.length ≤ l.length := by
  induction l using afterBlockClose.induct with
  | case1 => intro r h; simp [afterBlockClose] at h
  | case2 t =>
    intro r h
    simp only [afterBlockClose, Option.some.injEq] at h
    subst h
    simp only [List.length_cons]
    omega
  | case3 b t h1 ih =>
    intro r h
    rw [afterBlockClose.eq_def] at h
    revert h
    split
    · intro h; cases h
    · rename_i t2 heq
      rw [List.cons.injEq] at heq
      exact absurd heq.2 (fun hx => h1 t2 heq.1 hx)
    · rename_i b2 t2 hx heq
      rw [List.cons.injEq] at heq
      intro h
      rw [← heq.2] at h
      have := ih r h
      simp only [List.length_cons]
      omega

/-- `replace_all` of the C-style block comment regex
    `/\*[^*]*\*+(?:[^/*][^*]*\*+)*/` (src line 46): a match starts at `/*` and
    extends through the first following `*/`; an unterminated `/*` does not
    match and scanning resumes one byte further. -/
def stripBlock (l : List Nat) : List Nat :=
  match l with
  | [] => []
  | 47 :: 42 :: t =>
    match h : afterBlockClose t with
    | some r => stripBlock r
    | none => 47 :: stripBlock (42 :: t)
  | h :: t => h :: stripBlock t
termination_by l.length
decreasing_by
  · have := afterBlockClose_length t r h
    simp only [List.length_cons]
    omega
  · simp only [List.length_cons]; omega
  · simp

/-- After `=begin` (Ruby block pattern `=begin[^=]*=end`, src line 82):
    `[^=]*` runs to the first `=`, where `=end` must follow; returns the rest
    after `=end`, or `none` when the pattern cannot match here. -/
def rubyClose (l : List Nat) : Option (List Nat) :=
  let r := l.dropWhile (fun b => b != 61)
  if (ascii "=end").isPrefixOf r then some (r.drop 4) else none

theorem rubyClose_length (l : List Nat) :
    ∀ r, rubyClose l = some r → r.length ≤ l.length := by
  intro r h
  simp only [rubyClose] at h
  revert h
  split
  · intro h
    injection h with h2
    subst h2
    have h1 : (l.dropWhile (fun b => b != 61)).length ≤ l.length :=
      (List.dropWhile_sublist _).length_le
    simp only [List.length_drop]
    omega
  · intro h; cases h

/-- `replace_all` of the Ruby block pattern `=begin[^=]*=end`. -/
def stripRuby (l : List Nat) : List Nat :=
  match l with
  | [] => []
  | h :: t =>
    if (ascii "=begin").isPrefixOf (h :: t) then
      match hc : rubyClose (List.drop 6 (h :: t)) with
      | some r => stripRuby r
      | none => h :: stripRuby t
    else h :: stripRuby t
termination_by l.length
decreasing_by
  · have h1 := rubyClose_length (List.drop 6 (h :: t)) r hc
    simp only [List.length_drop, List.length_cons] at *
    omega
  · simp
  · simp

/-- After `<!--` (markup pattern `<!--[^>]*-->`, src line 97): `[^>]*` runs to
    the first `>`, which must close a `-->`; returns the rest after `-->`. -/
def htmlClose : List Nat → Option (List Nat)
  | [] => none
  | 45 :: 45 :: 62 :: t => some t
  | 62 :: _ => none
  | _ :: t => htmlClose t

theorem htmlClose_length (l : List Nat) :
    ∀ r, htmlClose l = some r → r.length ≤ l.length := by
  induction l using htmlClose.induct with
  | case1 => intro r h; simp [htmlClose] at h
  | case2 t =>
    intro r h
    simp only [htmlClose, Option.some.injEq] at h
    subst h
    simp only [List.length_cons]
    omega
  | case3 t =>
    intro r h
    simp [htmlClose] at h
  | case4 b t h1 h2 ih =>
    intro r h
    rw [htmlClose.eq_def] at h
    revert h
    split
    · intro h; cases h
    · rename_i t2 heq
      rw [List.cons.injEq] at heq
      exact absurd heq.2 (fun hx => (h1 t2 heq.1 hx).elim)
    · rename_i t2 heq
      rw [List.cons.injEq] at heq
      exact absurd heq.1 (fun hx => (h2 hx).elim)
    · rename_i b2 t2 hx hy heq
      rw [List.cons.injEq] at heq
      intro h
      rw [← heq.2] at h
      have := ih r h
      simp only [List.length_cons]
      omega

/-- `replace_all` of the markup comment pattern `<!--[^>]*-->`. -/
def stripHtml (l : List Nat) : List Nat :=
  match l with
  | [] => []
  | 60 :: 33 :: 45 :: 45 :: t =>
    match hc : htmlClose t with
    | some r => stripHtml r
    | none => 60 :: stripHtml (33 :: 45 :: 45 :: t)
  | h :: t => h :: stripHtml t
termination_by l.length
decreasing_by
  · have := htmlClose_length t r hc
    simp only [List.length_cons]
    omega
  · simp only [List.length_cons]; omega
  · simp

/-- `replace_all` of the Vue/Svelte block pattern
    `/\*[^*]*\*+(?:[^/*][^*]*\*+)*\/|<!--[^>]*-->` (src line 106): at each
    position the C-style alternative is tried first, then the markup one. -/
def stripVue (l : List Nat) : List Nat :=
  match l with
  | [] => []
  | 47 :: 42 :: t =>
    match hc : afterBlockClose t with
    | some r => stripVue r
    | none => 47 :: stripVue (42 :: t)
  | 60 :: 33 :: 45 :: 45 :: t =>
    match hc : htmlClose t with
    | some r => stripVue r
    | none => 60 :: stripVue (33 :: 45 :: 45 :: t)
  | h :: t => h :: stripVue t
termination_by l.length
decreasing_by
  · have := afterBlockClose_length t r hc
    simp only [List.length_cons]
    omega
  · simp only [List.length_cons]; omega
  · have := htmlClose_length t r hc
    simp only [List.length_cons]
    omega
  · simp only [List.length_cons]; omega
  · simp

/-- After `<#` (PowerShell block pattern `<#[^#]*#>`, src line 146): `[^#]*`
    runs to the first `#`, which must start `#>`. -/
def psClose : List Nat → Option (List Nat)
  | [] => none
  | 35 :: 62 :: t => some t
  | 35 :: _ => none
  | _ :: t => psClose t

theorem psClose_length (l : List Nat) :
    ∀ r, psClose l = some r → r.length ≤ l.length := by
  induction l using psClose.induct with
  | case1 => intro r h; simp [psClose] at h
  | case2 t =>
    intro r h
    simp only [psClose, Option.some.injEq] at h
    subst h
    simp only [List.length_cons]
    omega
  | case3 t h1 =>
    intro r h
    rw [psClose.eq_def] at h
    revert h
    split
    · intro h; cases h
    · rename_i t2 heq
      rw [List.cons.injEq] at heq
      exact absurd heq.2 (fun hx => (h1 t2 hx).elim)
    · intro h; cases h
    · rename_i b2 t2 hx hy heq
      rw [List.cons.injEq] at heq
      exact absurd heq.1 (fun hz => (hy hz.symm).elim)
  | case4 b t h1 h2 ih =>
    intro r h
    rw [psClose.eq_def] at h
    revert h
    split
    · intro h; cases h
    · rename_i t2 heq
      rw [List.cons.injEq] at heq
      exact absurd heq.1 (fun hx => (h2 hx).elim)
    · rename_i t2 heq
      rw [List.cons.injEq] at heq
      exact absurd heq.1 (fun hx => (h2 hx).elim)
    · rename_i b2 t2 hx hy heq
      rw [List.cons.injEq] at heq
      intro h
      rw [← heq.2] at h
      have := ih r h
      simp only [List.length_cons]
      omega

/-- `replace_all` of the PowerShell block pattern `<#[^#]*#>`. -/
def stripPs (l : List Nat) : List Nat :=
  match l with
  | [] => []
  | 60 :: 35 :: t =>
    match hc : psClose t with
    | some r => stripPs r
    | none => 60 :: stripPs (35 :: t)
  | h :: t => h :: stripPs t
termination_by l.length
decreasing_by
  · have := psClose_length t r hc
    simp only [List.length_cons]
    omega
  · simp only [List.length_cons]; omega
  · simp

/-- After a triple-quote opener of quote byte `q` (Python docstring pattern
    `\"\"\"[^"]*(?:"")?[^"]*\"\"\"` and its `'''` twin, src line 48): `[^q]*`
    runs to the first `q`; the greedy optional `qq` is tried first, each
    branch requiring a closing `qqq` after a further `[^q]*` run. -/
def pyDocClose (q : Nat) (r : List Nat) : Option (List Nat) :=
  let r1 := r.dropWhile (fun b => b != q)
  if [q, q].isPrefixOf r1 then
    let r3 := r1.drop 2
    let r4 := r3.dropWhile (fun b => b != q)
    if [q, q, q].isPrefixOf r4 then some (r4.drop 3)
    else if [q, q, q].isPrefixOf r1 then some (r1.drop 3)
    else none
  else none

theorem pyDocClose_length (q : Nat) (l : List Nat) :
    ∀ r, pyDocClose q l = some r → r.length ≤ l.length := by
  intro r h
  simp only [pyDocClose] at h
  have h1 : (l.dropWhile (fun b => b != q)).length ≤ l.length :=
    (List.dropWhile_sublist _).length_le
  have h2 : ((l.dropWhile (fun b => b != q)).drop 2).length ≤ l.length := by
    simp only [List.length_drop]; omega
  have h3 : (((l.dropWhile (fun b => b != q)).drop 2).dropWhile
      (fun b => b != q)).length ≤ ((l.dropWhile (fun b => b != q)).drop 2).length :=
    (List.dropWhile_sublist _).length_le
  revert h
  split
  · split
    · intro h
      injection h with h4
      subst h4
      simp only [List.length_drop]
      omega
    · split
      · intro h
        injection h with h4
        subst h4
        simp only [List.length_drop]
        omega
      · intro h; cases h
  · intro h; cases h

/-- `replace_all` of the Python docstring pattern (alternation: the
    double-quote branch is tried first at each position). -/
def stripPyDoc (l : List Nat) : List Nat :=
  match l with
  | [] => []
  | 34 :: 34 :: 34 :: t =>
    match hc : pyDocClose 34 t with
    | some r => stripPyDoc r
    | none => 34 :: stripPyDoc (34 :: 34 :: t)
  | 39 :: 39 :: 39 :: t =>
    match hc : pyDocClose 39 t with
    | some r => stripPyDoc r
    | none => 39 :: stripPyDoc (39 :: 39 :: t)
  | h :: t => h :: stripPyDoc t
termination_by l.length
decreasing_by
  · have := pyDocClose_length 34 t r hc
    simp only [List.length_cons]
    omega
  · simp only [List.length_cons]; omega
  · have := pyDocClose_length 39 t r hc
    simp only [List.length_cons]
    omega
  · simp only [List.length_cons]; omega
  · simp

/-- One line under the Batch pattern `(?m)^[ \t]*(?:REM|rem|::)[^\n]*`
    (src line 151): a line whose content after leading spaces/tabs starts
    with `REM`, `rem` or `::` is deleted entirely. -/
def batLine (line : List Nat) : List Nat :=
  let r := line.dropWhile (fun b => b == 32 || b == 9)
  if (ascii "REM").isPrefixOf r ∨ (ascii "rem").isPrefixOf r ∨ [58, 58].isPrefixOf r
  then [] else line

/-- Split at newline bytes (the lines seen by the `(?m)`-anchored per-line
    regexes; a trailing newline yields a final empty line, matching the
    end-of-haystack anchor position). -/
def splitNl : List Nat → List (List Nat)
  | [] => [[]]
  | 10 :: t => [] :: splitNl t
  | b :: t =>
    match splitNl t with
    | [] => [[b]]
    | l0 :: rest => (b :: l0) :: rest

/-- Apply `f` to every newline-separated line of `l`, keeping the newlines:
    the action of the `(?m)`-anchored per-line regexes. -/
def mapLines (f : List Nat → List Nat) (l : List Nat) : List Nat :=
  List.intercalate [10] ((splitNl l).map f)

/-- Strip trailing spaces/tabs from one line (`TRAILING_WS = (?m)[ \t]+$`,
    src line 169). -/
def rstripWsTab (line : List Nat) : List Nat :=
  (line.reverse.dropWhile (fun b => b == 32 || b == 9)).reverse

/-- `TRAILING_WS.replace_all(_, "")`. -/
def stripTrailingWs (l : List Nat) : List Nat := mapLines rstripWsTab l

/-- Collapse the leading space/tab run of one line to a single space
    (`LEADING_WS = (?m)^[ \t]+` replaced by `" "`, src line 170). -/
def lstripToSpace (line : List Nat) : List Nat :=
  match line with
  | [] => []
  | b :: t =>
    if b == 32 || b == 9
    then 32 :: (b :: t).dropWhile (fun x => x == 32 || x == 9)
    else b :: t

/-- `LEADING_WS.replace_all(_, " ")`. -/
def collapseLeadingWs (l : List Nat) : List Nat := mapLines lstripToSpace l

/-- Leading newline-run length and remainder. -/
def nlRun : List Nat → Nat × List Nat
  | 10 :: t =>
    let p := nlRun t
    (p.1 + 1, p.2)
  | l => (0, l)

theorem nlRun_cons_ne {b : Nat} (t : List Nat) (hb : b ≠ 10) :
    nlRun (b :: t) = (0, b :: t) := by
  rw [nlRun.eq_def]
  split
  · rename_i t2 heq
    rw [List.cons.injEq] at heq
    exact absurd heq.1 hb
  · rfl

theorem nlRun_append (l : List Nat) :
    List.replicate (nlRun l).1 10 ++ (nlRun l).2 = l := by
  induction l with
  | nil => simp [nlRun]
  | cons b t ih =>
    by_cases hb : b = 10
    · subst hb
      simp only [nlRun, List.replicate_succ, List.cons_append, List.cons.injEq, true_and]
      exact ih
    · rw [nlRun_cons_ne t hb]
      simp

theorem nlRun_snd_length (l : List Nat) : (nlRun l).2.length ≤ l.length := by
  conv_rhs => rw [← nlRun_append l]
  simp

/-- `TRIPLE_NEWLINES = \n{3,}` replaced by `"\n\n"` (src line 168): every
    maximal newline run of length at least 3 becomes exactly two newlines. -/
def collapseNl3 (l : List Nat) : List Nat :=
  match l with
  | [] => []
  | 10 :: t =>
    let p := nlRun t
    (if p.1 + 1 ≥ 3 then [10, 10] else List.replicate (p.1 + 1) 10) ++ collapseNl3 p.2
  | b :: t => b :: collapseNl3 t
termination_by l.length
decreasing_by
  · have := nlRun_snd_length t
    simp only [List.length_cons]
    omega
  · simp

/-- `MULTIPLE_NEWLINES = \n{2,}` replaced by `"\n"` (src line 171). -/
def collapseNl2 (l : List Nat) : List Nat :=
  match l with
  | [] => []
  | 10 :: t =>
    let p := nlRun t
    (if p.1 + 1 ≥ 2 then [10] else List.replicate (p.1 + 1) 10) ++ collapseNl2 p.2
  | b :: t => b :: collapseNl2 t
termination_by l.length
decreasing_by
  · have := nlRun_snd_length t
    simp only [List.length_cons]
    omega
  · simp

/-! ## Grammar table and `remove_comments` -/

/-- The concrete single-line patterns appearing in `COMMENT_PATTERNS`
    (src lines 42-159). -/
inductive SingleKind
  | cstyle   -- `//[^\n]*`
  | hash     -- `#[^\n]*`
  | iniKind  -- `[;#][^\n]*`
  | dash     -- `--[^\n]*`
  | semi     -- `;[^\n]*`
  | phpKind  -- `(?://|#)[^\n]*`
  | batKind  -- `(?m)^[ \t]*(?:REM|rem|::)[^\n]*`
deriving DecidableEq

/-- The concrete block patterns appearing in `COMMENT_PATTERNS`. -/
inductive MultiKind
  | cstyle    -- `/\*[^*]*\*+(?:[^/*][^*]*\*+)*/`
  | rubyKind  -- `=begin[^=]*=end`
  | htmlKind  -- `<!--[^>]*-->`
  | vueKind   -- the C-style pattern or the markup pattern
  | psKind    -- `<#[^#]*#>`
deriving DecidableEq

/-- The concrete docstring patterns appearing in `COMMENT_PATTERNS`. -/
inductive DocKind
  | py  -- the Python triple-quote pattern
deriving DecidableEq

/-- `replace_all(_, "")` of one single-line pattern. -/
def applySingle : SingleKind → List Nat → List Nat
  | .cstyle => stripSingleM [(47, [47])]
  | .hash => stripSingleM [(35, [])]
  | .iniKind => stripSingleM [(59, []), (35, [])]
  | .dash => stripSingleM [(45, [45])]
  | .semi => stripSingleM [(59, [])]
  | .phpKind => stripSingleM [(47, [47]), (35, [])]
  | .batKind => mapLines batLine

/-- `replace_all(_, "")` of one block pattern. -/
def applyMulti : MultiKind → List Nat → List Nat
  | .cstyle => stripBlock
  | .rubyKind => stripRuby
  | .htmlKind => stripHtml
  | .vueKind => stripVue
  | .psKind => stripPs

/-- `replace_all(_, "")` of one docstring pattern. -/
def applyDoc : DocKind → List Nat → List Nat
  | .py => stripPyDoc

/-- `CommentPattern` (src lines 17-23). -/
structure CommentPattern where
  single : Option SingleKind
  multi : Option MultiKind
  docstring : Option DocKind
  preserve_strings : Bool
deriving DecidableEq

/-- Membership of a (normalized) extension in a key group. -/
def extIn (e : List Nat) (keys : List String) : Bool :=
  keys.any (fun k => ascii k == e)

/-- The static `COMMENT_PATTERNS` table (src lines 42-159) as a lookup
    function; the `HashMap` keys are pairwise distinct, so insertion order is
    irrelevant and the map is equivalent to this chain of key-group tests. -/
def lookupGrammar (e : List Nat) : Option CommentPattern :=
  if extIn e ["js", "mjs", "cjs", "ts", "mts", "tsx", "jsx"] then
    some ⟨some .cstyle, some .cstyle, none, true⟩
  else if extIn e ["c", "h", "cpp", "hpp", "cc", "cs", "java", "go", "rs",
      "swift", "kt", "kts", "dart", "scala", "groovy"] then
    some ⟨some .cstyle, some .cstyle, none, true⟩
  else if extIn e ["py", "pyw"] then some ⟨some .hash, none, some .py, true⟩
  else if extIn e ["pyx"] then some ⟨some .hash, none, none, true⟩
  else if extIn e ["rb"] then some ⟨some .hash, some .rubyKind, none, true⟩
  else if extIn e ["sh", "bash", "zsh", "fish", "r", "yaml", "yml", "toml", "conf"] then
    some ⟨some .hash, none, none, false⟩
  else if extIn e ["ini"] then some ⟨some .iniKind, none, none, false⟩
  else if extIn e ["pl", "pm"] then some ⟨some .hash, none, none, true⟩
  else if extIn e ["html", "htm", "xml", "svg", "xhtml"] then
    some ⟨none, some .htmlKind, none, false⟩
  else if extIn e ["vue", "svelte"] then some ⟨some .cstyle, some .vueKind, none, true⟩
  else if extIn e ["css"] then some ⟨none, some .cstyle, none, false⟩
  else if extIn e ["scss"] then some ⟨some .cstyle, some .cstyle, none, false⟩
  else if extIn e ["sass"] then some ⟨some .cstyle, none, none, false⟩
  else if extIn e ["less"] then some ⟨some .cstyle, some .cstyle, none, false⟩
  else if extIn e ["sql"] then some ⟨some .dash, some .cstyle, none, false⟩
  else if extIn e ["lua"] then some ⟨some .dash, none, none, false⟩
  else if extIn e ["php"] then some ⟨some .phpKind, some .cstyle, none, true⟩
  else if extIn e ["hs"] then some ⟨some .dash, none, none, false⟩
  else if extIn e ["clj", "cljs", "lisp", "el", "scm"] then
    some ⟨some .semi, none, none, false⟩
  else if extIn e ["ps1", "psm1"] then some ⟨some .hash, some .psKind, none, false⟩
  else if extIn e ["bat", "cmd"] then some ⟨some .batKind, none, none, false⟩
  else if extIn e ["jsonc"] then some ⟨some .cstyle, some .cstyle, none, false⟩
  else none

/-- ASCII lowercasing of one byte (`str::to_lowercase`; all table keys are
    ASCII, so only the ASCII case mapping is relevant). -/
def lowerByte (b : Nat) : Nat := if 65 ≤ b ∧ b ≤ 90 then b + 32 else b

/-- `extension.trim_start_matches('.').to_lowercase()` (src line 290). -/
def normalizeExt (e : List Nat) : List Nat :=
  (e.dropWhile (fun b => b == 46)).map lowerByte

/-- `remove_comments(code, extension)` (src lines 285-322). -/
def removeComments (code : List Nat) (extension : List Nat) : List Nat :=
  if code.length < 2 ∨ code.length > MAX_PROCESS_SIZE then code
  else
    match lookupGrammar (normalizeExt extension) with
    | none => code
    | some patterns =>
      let p0 := if patterns.preserve_strings then protectStrings code else (code, [])
      let w1 := match patterns.docstring with
        | some d => applyDoc d p0.1
        | none => p0.1
      let w2 := match patterns.multi with
        | some m => applyMulti m w1
        | none => w1
      let w3 := match patterns.single with
        | some s => applySingle s w2
        | none => w2
      let w4 := if p0.2 ≠ [] then restoreStrings w3 p0.2 else w3
      stripTrailingWs (collapseNl3 w4)

theorem restoreStrings_nil (code : List Nat) : restoreStrings code [] = code := by
  simp [restoreStrings]

/-- The comment-stripping pipeline as worded by the spec (section 4.3,
    steps 1-7): shield when the grammar protects literals; delete docstring,
    then block, then single-line matches; unshield when shielded; collapse
    runs of 3 or more newlines to exactly 2; strip trailing horizontal
    whitespace on every line.  This is the spec-side definition used for the
    refinement statement; `removeComments` is the source-side definition. -/
def specStripComments (g : CommentPattern) (code : List Nat) : List Nat :=
  let p := if g.preserve_strings then protectStrings code else (code, [])
  let w1 := match g.docstring with
    | some d => applyDoc d p.1
    | none => p.1
  let w2 := match g.multi with
    | some m => applyMulti m w1
    | none => w1
  let w3 := match g.single with
    | some s => applySingle s w2
    | none => w2
  let w4 := if g.preserve_strings then restoreStrings w3 p.2 else w3
  stripTrailingWs (collapseNl3 w4)

theorem removeComments_pipeline (code extension : List Nat) (g : CommentPattern)
    (hlen : ¬(code.length < 2 ∨ code.length > MAX_PROCESS_SIZE))
    (hg : lookupGrammar (normalizeExt extension) = some g) :
    removeComments code extension = specStripComments g code := by
  rw [removeComments, if_neg hlen, hg]
  simp only [specStripComments]
  by_cases hp : g.preserve_strings
  · simp only [hp, if_true]
    by_cases hs : (protectStrings code).2 = []
    · rw [if_neg (by simp [hs]), hs, restoreStrings_nil]
    · rw [if_pos hs]
  · simp only [hp, if_false, Bool.false_eq_true]
    rw [if_neg (by simp)]

/-! ## Minifier helpers and the JSON model

`minify_code` (src lines 324-363) reuses the comment stripper and then
branches by extension family.  The JSON branch calls the external
`serde_json` collaborator; it is modelled below (`jsonParse` / `jsonPrint`)
from the spec's description ("attempt strict structural parse; on success,
re-serialize in compact form"), with string bodies and number tokens kept as
raw lexemes (the model does not re-canonicalize escape sequences or number
forms the way `serde_json` does, which does not affect the stated
round-trip properties). -/

/-- ASCII whitespace bytes of Rust `char::is_whitespace` / regex `\s`
    (the non-ASCII Unicode whitespace code points are multi-byte and outside
    the byte-level model). -/
def isWsByte (b : Nat) : Bool :=
  b == 32 || b == 9 || b == 10 || b == 13 || b == 11 || b == 12

/-- Rust `str::trim` (ASCII whitespace). -/
def trimAscii (l : List Nat) : List Nat :=
  ((l.dropWhile isWsByte).reverse.dropWhile isWsByte).reverse

/-- Rust `str::split_whitespace`: maximal non-whitespace tokens. -/
def wsTokens (l : List Nat) : List (List Nat) :=
  match l with
  | [] => []
  | b :: t =>
    if isWsByte b then wsTokens t
    else (b :: t.takeWhile (fun x => !isWsByte x)) ::
      wsTokens (t.dropWhile (fun x => !isWsByte x))
termination_by l.length
decreasing_by
  · simp
  · have : (t.dropWhile (fun x => !isWsByte x)).length ≤ t.length :=
      (List.dropWhile_sublist _).length_le
    simp only [List.length_cons]
    omega

/-- `result.split_whitespace().collect::<Vec<_>>().join(" ")`. -/
def joinSpace (l : List Nat) : List Nat := List.intercalate [32] (wsTokens l)

/-- `ANGLE_WHITESPACE = >\s+<` replaced by `"><"` (src lines 173, 349):
    whitespace strictly between `>` and `<` is deleted; scanning resumes
    after the `<` of a match. -/
def collapseAngle (l : List Nat) : List Nat :=
  match l with
  | [] => []
  | 62 :: t =>
    if (t.takeWhile isWsByte) ≠ [] then
      match hd : t.dropWhile isWsByte with
      | 60 :: r2 => 62 :: 60 :: collapseAngle r2
      | _ => 62 :: collapseAngle t
    else 62 :: collapseAngle t
  | b :: t => b :: collapseAngle t
termination_by l.length
decreasing_by
  · have h1 : (t.dropWhile isWsByte).length ≤ t.length :=
      (List.dropWhile_sublist _).length_le
    rw [hd] at h1
    simp only [List.length_cons] at *
    omega
  · simp only [List.length_cons]; omega
  · simp only [List.length_cons]; omega
  · simp

/-- `JSON_COMMENT = /\*[^*]*\*+(?:[^/*][^*]*\*+)*/|//[^\n]*` (src line 172):
    at each position the block alternative is tried first, then the
    single-line one. -/
def stripJsonComment (l : List Nat) : List Nat :=
  match l with
  | [] => []
  | 47 :: 42 :: t =>
    match hc : afterBlockClose t with
    | some r => stripJsonComment r
    | none => 47 :: stripJsonComment (42 :: t)
  | 47 :: 47 :: t => stripJsonComment (dropToNl t)
  | h :: t => h :: stripJsonComment t
termination_by l.length
decreasing_by
  · have := afterBlockClose_length t r hc
    simp only [List.length_cons]
    omega
  · simp only [List.length_cons]; omega
  · have := dropToNl_length t
    simp only [List.length_cons]
    omega
  · simp

/-- Structural JSON values; string bodies and number tokens are kept as the
    raw byte lexemes accepted by the grammar below. -/
inductive JVal where
  | jnull : JVal
  | jbool : Bool → JVal
  | jnum : List Nat → JVal
  | jstr : List Nat → JVal
  | jarr : List JVal → JVal
  | jobj : List (List Nat × JVal) → JVal
deriving BEq

/-- JSON whitespace accepted between tokens (space, tab, newline, carriage
    return). -/
def jsonWs (b : Nat) : Bool := b == 32 || b == 9 || b == 10 || b == 13

def skipJsonWs (l : List Nat) : List Nat := l.dropWhile jsonWs

def isHexByte (b : Nat) : Bool :=
  decide ((48 ≤ b ∧ b ≤ 57) ∨ (97 ≤ b ∧ b ≤ 102) ∨ (65 ≤ b ∧ b ≤ 70))

def isDigitByte (b : Nat) : Bool := decide (48 ≤ b ∧ b ≤ 57)

/-- The single-character escapes accepted inside a JSON string literal. -/
def jsonEscByte (c : Nat) : Bool :=
  c == 34 || c == 92 || c == 47 || c == 98 || c == 102 || c == 110 ||
    c == 114 || c == 116

mutual

/-- Scan a JSON string body after the opening quote: stop at the unescaped
    closing quote, validate escape sequences, reject raw control bytes.
    Returns the raw body and the rest after the closing quote. -/
def scanJsonString : List Nat → Option (List Nat × List Nat)
  | [] => none
  | b :: t =>
    if b = 34 then some ([], t)
    else if b = 92 then scanJsonEsc t
    else if b < 32 then none
    else (scanJsonString t).map (fun p => (b :: p.1, p.2))

def scanJsonEsc : List Nat → Option (List Nat × List Nat)
  | [] => none
  | c :: t2 =>
    if jsonEscByte c then
      (scanJsonString t2).map (fun p => (92 :: c :: p.1, p.2))
    else if c = 117 then scanJsonHex4 t2
    else none

def scanJsonHex4 : List Nat → Option (List Nat × List Nat)
  | h1 :: h2 :: h3 :: h4 :: t3 =>
    if isHexByte h1 && isHexByte h2 && isHexByte h3 && isHexByte h4 then
      (scanJsonString t3).map
        (fun p => (92 :: 117 :: h1 :: h2 :: h3 :: h4 :: p.1, p.2))
    else none
  | _ => none

end

def scanJsonNat (l : List Nat) : Option (List Nat × List Nat) :=
  match l with
  | [] => none
  | b :: t =>
    if b = 48 then some ([48], t)
    else if 49 ≤ b ∧ b ≤ 57 then
      some (b :: t.takeWhile isDigitByte, t.dropWhile isDigitByte)
    else none

def scanJsonNumber (l : List Nat) : Option (List Nat × List Nat) :=
  match l with
  | [] => none
  | b :: t =>
    if b = 45 then (scanJsonNat t).map (fun p => (45 :: p.1, p.2))
    else scanJsonNat (b :: t)

def scanJsonFrac (l : List Nat) : Option (List Nat × List Nat) :=
  match l with
  | [] => some ([], [])
  | b :: t =>
    if b = 46 then
      match t.takeWhile isDigitByte with
      | [] => none
      | d :: ds => some (46 :: d :: ds, t.dropWhile isDigitByte)
    else some ([], b :: t)

def scanExpDigits (b : Nat) (sg : List Nat) (t : List Nat) :
    Option (List Nat × List Nat) :=
  match t.takeWhile isDigitByte with
  | [] => none
  | d :: ds => some (b :: sg ++ d :: ds, t.dropWhile isDigitByte)

def scanJsonExp (l : List Nat) : Option (List Nat × List Nat) :=
  match l with
  | [] => some ([], [])
  | b :: t =>
    if b = 101 ∨ b = 69 then
      match t with
      | [] => none
      | c :: t2 =>
        if c = 43 then scanExpDigits b [43] t2
        else if c = 45 then scanExpDigits b [45] t2
        else scanExpDigits b [] (c :: t2)
    else some ([], b :: t)

def scanJsonNumberFull (l : List Nat) : Option (List Nat × List Nat) :=
  match scanJsonNumber l with
  | none => none
  | some p1 =>
    match scanJsonFrac p1.2 with
    | none => none
    | some p2 =>
      match scanJsonExp p2.2 with
      | none => none
      | some p3 => some (p1.1 ++ p2.1 ++ p3.1, p3.2)

mutual

/-- Fuelled recursive-descent JSON value parser (model of
    `serde_json::from_str`\'s grammar); the wrapper `jsonParse` supplies
    sufficient fuel. -/
def parseJsonValue : Nat → List Nat → Option (JVal × List Nat)
  | 0, _ => none
  | fuel + 1, l =>
    match skipJsonWs l with
    | [] => none
    | b :: t =>
      if b = 110 then
        if [117, 108, 108].isPrefixOf t then some (.jnull, t.drop 3) else none
      else if b = 116 then
        if [114, 117, 101].isPrefixOf t then some (.jbool true, t.drop 3)
        else none
      else if b = 102 then
        if [97, 108, 115, 101].isPrefixOf t then some (.jbool false, t.drop 4)
        else none
      else if b = 34 then (scanJsonString t).map (fun p => (.jstr p.1, p.2))
      else if b = 91 then
        match skipJsonWs t with
        | [] => parseJsonItems fuel t []
        | b2 :: t2 =>
          if b2 = 93 then some (.jarr [], t2) else parseJsonItems fuel t []
      else if b = 123 then
        match skipJsonWs t with
        | [] => parseJsonMembers fuel t []
        | b2 :: t2 =>
          if b2 = 125 then some (.jobj [], t2) else parseJsonMembers fuel t []
      else (scanJsonNumberFull (b :: t)).map (fun p => (.jnum p.1, p.2))

def parseJsonItems : Nat → List Nat → List JVal → Option (JVal × List Nat)
  | 0, _, _ => none
  | fuel + 1, l, acc =>
    match parseJsonValue fuel l with
    | none => none
    | some (v, r) =>
      match skipJsonWs r with
      | [] => none
      | b :: t =>
        if b = 44 then parseJsonItems fuel t (acc ++ [v])
        else if b = 93 then some (.jarr (acc ++ [v]), t)
        else none

def parseJsonMembers : Nat → List Nat → List (List Nat × JVal) →
    Option (JVal × List Nat)
  | 0, _, _ => none
  | fuel + 1, l, acc =>
    match skipJsonWs l with
    | [] => none
    | b0 :: t =>
      if b0 = 34 then
        match scanJsonString t with
        | none => none
        | some (k, r) =>
          match skipJsonWs r with
          | [] => none
          | b1 :: t2 =>
            if b1 = 58 then
              match parseJsonValue fuel t2 with
              | none => none
              | some (v, r2) =>
                match skipJsonWs r2 with
                | [] => none
                | b2 :: t3 =>
                  if b2 = 44 then parseJsonMembers fuel t3 (acc ++ [(k, v)])
                  else if b2 = 125 then some (.jobj (acc ++ [(k, v)]), t3)
                  else none
            else none
      else none

end

/-- `serde_json::from_str::<Value>` (modelled): parse one value and require
    only trailing whitespace. -/
def jsonParse (l : List Nat) : Option JVal :=
  match parseJsonValue (2 * l.length + 4) l with
  | some (v, r) => if skipJsonWs r = [] then some v else none
  | none => none

mutual

/-- `serde_json::to_string` (modelled): compact serialization with no
    whitespace; string bodies and number tokens are emitted as stored. -/
def jsonPrint : JVal → List Nat
  | .jnull => [110, 117, 108, 108]
  | .jbool true => [116, 114, 117, 101]
  | .jbool false => [102, 97, 108, 115, 101]
  | .jnum s => s
  | .jstr s => 34 :: s ++ [34]
  | .jarr xs => 91 :: jsonPrintItems xs ++ [93]
  | .jobj kvs => 123 :: jsonPrintMembers kvs ++ [125]

def jsonPrintItems : List JVal → List Nat
  | [] => []
  | [x] => jsonPrint x
  | x :: xs => jsonPrint x ++ 44 :: jsonPrintItems xs

def jsonPrintMembers : List (List Nat × JVal) → List Nat
  | [] => []
  | [(k, v)] => 34 :: k ++ 34 :: 58 :: jsonPrint v
  | (k, v) :: xs => 34 :: k ++ 34 :: 58 :: jsonPrint v ++ 44 :: jsonPrintMembers xs

end

/-! Verification devices for the JSON model: fuel measures, reparse
    predicates. -/

def okRest : List Nat → Prop
  | [] => True
  | b :: _ => b = 44 ∨ b = 93 ∨ b = 125

def numRest : List Nat → Prop
  | [] => True
  | b :: _ => isDigitByte b = false ∧ b ≠ 46 ∧ b ≠ 101 ∧ b ≠ 69

mutual

def jsize : JVal → Nat
  | .jnull => 1
  | .jbool _ => 1
  | .jnum _ => 1
  | .jstr _ => 1
  | .jarr xs => 1 + jsizeItems xs
  | .jobj kvs => 1 + jsizeMembers kvs

def jsizeItems : List JVal → Nat
  | [] => 1
  | x :: xs => 1 + jsize x + jsizeItems xs

def jsizeMembers : List (List Nat × JVal) → Nat
  | [] => 1
  | (_, v) :: xs => 1 + jsize v + jsizeMembers xs

end

def RV (v : JVal) : Prop :=
  (∃ b t, jsonPrint v = b :: t ∧ jsonWs b = false ∧ b ≠ 93 ∧ b ≠ 125) ∧
  ∀ g r, jsize v ≤ g → okRest r →
    parseJsonValue g (jsonPrint v ++ r) = some (v, r)

def SK (k : List Nat) : Prop :=
  ∀ r, scanJsonString (k ++ 34 :: r) = some (k, r)

def RVI (xs : List JVal) : Prop := ∀ x ∈ xs, RV x

def RVM (kvs : List (List Nat × JVal)) : Prop := ∀ p ∈ kvs, SK p.1 ∧ RV p.2

/-- `minify_code(code, extension)` (src lines 324-363). -/
def minifyCode (code : List Nat) (extension : List Nat) : List Nat :=
  if code.length < 2 ∨ code.length > MAX_PROCESS_SIZE then code
  else
    let ext := normalizeExt extension
    let result := removeComments code ext
    if extIn ext ["py", "pyw", "yaml", "yml", "coffee", "sass", "pug", "haml"] then
      trimAscii (collapseNl3 (stripTrailingWs result))
    else if extIn ext ["json", "jsonc"] then
      let cleaned := stripJsonComment result
      match jsonParse cleaned with
      | some v => jsonPrint v
      | none => joinSpace result
    else if extIn ext ["html", "htm", "xml", "svg"] then
      trimAscii (joinSpace (collapseAngle result))
    else
      let p := protectStrings result
      restoreStrings
        (trimAscii (collapseLeadingWs (collapseNl2 (stripTrailingWs p.1)))) p.2

/-! ## Processing modes and the batch driver -/

/-- `ProcessingMode` (src lines 25-40). -/
inductive ProcessingMode where
  | Raw : ProcessingMode
  | RemoveComments : ProcessingMode
  | Minify : ProcessingMode
deriving DecidableEq

/-- `ProcessingMode::from_str` (src lines 32-40): unrecognized tags default
    to `Raw`. -/
def ProcessingMode.fromStr (mode : List Nat) : ProcessingMode :=
  if mode = ascii "remove-comments" then .RemoveComments
  else if mode = ascii "minify" then .Minify
  else .Raw

/-- One record of the batch input (`FileInput`, src lines 620-627). -/
structure FileInput where
  id : List Nat
  name : List Nat
  path : List Nat
  content : List Nat
  is_text : Bool

/-- One record of the batch output (`ProcessedFile`, src lines 629-633). -/
structure ProcessedFile where
  id : List Nat
  content : List Nat

/-- One progress event (`ProcessingProgress`, src lines 610-618). -/
structure ProcessingProgress where
  current_file_name : List Nat
  processed_files_count : Nat
  total_files_count : Nat
  processed_bytes : Nat
  total_bytes : Nat
  tokens_saved : Int

/-- The last path component (`Path::file_name` on a separator-free file name;
    trailing `/` separators are ignored). -/
def lastComp (p : List Nat) : List Nat :=
  let q := (p.reverse.dropWhile (fun b => b == 47)).reverse
  (q.reverse.takeWhile (fun b => b != 47)).reverse

/-- `Path::extension()`: the part of the file name after the last `.`, with
    no extension when there is no dot, when the only dot is the leading one
    (hidden files), or for the special names `.` and `..`. -/
def extOf (name : List Nat) : Option (List Nat) :=
  let f := lastComp name
  if f = [] ∨ f = [46] ∨ f = [46, 46] then none
  else
    let revTail := f.reverse.takeWhile (fun b => b != 46)
    if revTail.length = f.length then none
    else if f.length - revTail.length - 1 = 0 then none
    else some revTail.reverse

/-- `Path::new(&file.name).extension().and_then(to_str).unwrap_or("txt")`
    (src lines 660-664). -/
def extOfName (name : List Nat) : List Nat :=
  match extOf name with
  | some e => e
  | none => ascii "txt"

/-- The sequential loop of `process_files_with_progress` (src lines 652-721),
    with the state that the source mutates (`processed_files_count`,
    `processed_bytes`, `tokens_saved_total`) passed explicitly; the progress
    payloads emitted via `app_handle.emit` are collected in emission order. -/
def processFilesGo (modeStr : List Nat) (total_files_count total_bytes : Nat) :
    List FileInput → Nat → Nat → Int →
    List ProcessedFile × List ProcessingProgress
  | [], _, _, _ => ([], [])
  | f :: fs, cnt, bytes, saved =>
    let extension := extOfName f.name
    let processed_content :=
      match ProcessingMode.fromStr modeStr with
      | .Raw => f.content
      | .RemoveComments => removeComments f.content extension
      | .Minify => minifyCode f.content extension
    let cnt2 := cnt + 1
    let bytes2 := bytes + f.content.length
    let saved2 := saved + ((f.content.length : Int) - (processed_content.length : Int))
    let payload : ProcessingProgress :=
      ⟨f.name, cnt2, total_files_count, bytes2, total_bytes, saved2⟩
    let rest := processFilesGo modeStr total_files_count total_bytes fs cnt2 bytes2 saved2
    (⟨f.id, processed_content⟩ :: rest.1, payload :: rest.2)

/-- `process_files_with_progress(files, mode)` (src lines 635-727): returns
    the results in order together with the ordered list of emitted progress
    payloads. -/
def processFilesWithProgress (files : List FileInput) (mode : List Nat) :
    List ProcessedFile × List ProcessingProgress :=
  processFilesGo mode files.length ((files.map (fun f => f.content.length)).sum)
    files 0 0 0

/-- `process_code`'s dispatch (src lines 379-392). -/
def processCode (code : List Nat) (mode : List Nat) (extension : List Nat) :
    List Nat :=
  match ProcessingMode.fromStr mode with
  | .Raw => code
  | .RemoveComments => removeComments code extension
  | .Minify => minifyCode code extension

/-! ## Shared helper lemmas -/

theorem removeComments_of_lookup_none (x ext : List Nat)
    (h : lookupGrammar (normalizeExt ext) = none) :
    removeComments x ext = x := by
  rw [removeComments]
  split
  · rfl
  · rw [h]

/-! ## Lemmas about digits, placeholders and `replaceAll` -/

theorem natDigitsAux_digits : ∀ f n, n < f →
    ∀ d ∈ natDigitsAux f n, 48 ≤ d ∧ d ≤ 57 := by
  intro f
  induction f with
  | zero => intro n hn; omega
  | succ f ih =>
    intro n hn d hd
    rw [natDigitsAux] at hd
    by_cases h10 : n < 10
    · rw [if_pos h10] at hd
      simp at hd
      omega
    · rw [if_neg h10] at hd
      rw [List.mem_append] at hd
      rcases hd with hd | hd
      · exact ih (n / 10) (by omega) d hd
      · simp at hd
        omega

theorem natDigitsAux_ne_nil : ∀ f n, n < f → natDigitsAux f n ≠ [] := by
  intro f
  cases f with
  | zero => intro n hn; omega
  | succ f =>
    intro n hn
    rw [natDigitsAux]
    by_cases h10 : n < 10
    · simp [h10]
    · simp [h10]

theorem natDigitsAux_inj : ∀ f1, ∀ n1 f2 n2, n1 < f1 → n2 < f2 →
    natDigitsAux f1 n1 = natDigitsAux f2 n2 → n1 = n2 := by
  intro f1
  induction f1 with
  | zero => intro n1 f2 n2 h1; omega
  | succ f1 ih =>
    intro n1 f2 n2 h1 h2 heq
    cases f2 with
    | zero => omega
    | succ f2 =>
      rw [natDigitsAux, natDigitsAux] at heq
      by_cases ha : n1 < 10
      · by_cases hb : n2 < 10
        · rw [if_pos ha, if_pos hb] at heq
          simp at heq
          omega
        · rw [if_pos ha, if_neg hb] at heq
          exfalso
          have hne := natDigitsAux_ne_nil f2 (n2 / 10) (by omega)
          have hlen := congrArg List.length heq
          simp only [List.length_cons, List.length_nil, List.length_append] at hlen
          exact hne (List.length_eq_zero.mp (by omega))
      · by_cases hb : n2 < 10
        · rw [if_neg ha, if_pos hb] at heq
          exfalso
          have hne := natDigitsAux_ne_nil f1 (n1 / 10) (by omega)
          have hlen := congrArg List.length heq
          simp only [List.length_cons, List.length_nil, List.length_append] at hlen
          exact hne (List.length_eq_zero.mp (by omega))
        · rw [if_neg ha, if_neg hb] at heq
          obtain ⟨h3, h4⟩ := List.append_inj' heq (by simp)
          have h5 : n1 / 10 = n2 / 10 :=
            ih (n1 / 10) f2 (n2 / 10) (by omega) (by omega) h3
          simp at h4
          omega

theorem natDigits_inj {i j : Nat} (h : natDigits i = natDigits j) : i = j :=
  natDigitsAux_inj (i + 1) i (j + 1) j (by omega) (by omega) h

/-- The placeholder decomposed as `0 :: (mid ++ [0])` with a NUL-free,
    `83`-headed middle. -/
theorem placeholder_eq (i : Nat) :
    placeholder i = 0 :: (phMid i ++ [0]) := by
  simp [placeholder, phMid, natDigits]

theorem placeholder_append_cons (i : Nat) (t : List Nat) :
    placeholder i ++ t = 0 :: (phMid i ++ 0 :: t) := by
  rw [placeholder_eq, List.cons_append, List.append_assoc]
  rfl

theorem placeholder_ne_nil (i : Nat) : placeholder i ≠ [] := by
  rw [placeholder_eq]
  simp

theorem phMid_pos (i : Nat) : ∀ b ∈ phMid i, b ≠ 0 := by
  intro b hb
  have hd : b ∈ natDigits i → b ≠ 0 := by
    intro h
    have := natDigitsAux_digits (i + 1) i (by omega) b (by simpa [natDigits] using h)
    omega
  rw [phMid] at hb
  simp only [List.mem_cons, List.mem_append, List.not_mem_nil, or_false] at hb
  rcases hb with (h | h | h | h) | h | h | h
  · omega
  · omega
  · omega
  · exact hd h
  · omega
  · omega
  · omega

theorem phMid_inj {i j : Nat} (h : phMid i = phMid j) : i = j := by
  rw [phMid, phMid] at h
  have h2 : natDigits i ++ [69, 78, 68] = natDigits j ++ [69, 78, 68] := by
    simpa using h
  exact natDigits_inj (List.append_inj' h2 rfl).1

theorem phMid_head (i : Nat) :
    ∃ mtail, phMid i = 83 :: mtail := ⟨_, rfl⟩

/-- A NUL-headed needle cannot occur in NUL-free text. -/
theorem no_infix_of_no_nul {m l : List Nat} (h : (0 : Nat) ∉ l) :
    ¬ (0 :: m) <:+: l := by
  intro hinf
  exact h (hinf.subset (by simp))

/-- An occurrence of a NUL-headed needle in `s ++ r` with NUL-free `s` lies
    in `r`. -/
theorem infix_drop_clean_prefix :
    ∀ (s : List Nat) (r m : List Nat), (0 : Nat) ∉ s →
    (0 :: m) <:+: s ++ r → (0 :: m) <:+: r := by
  intro s
  induction s with
  | nil => intro r m _ h; simpa using h
  | cons x s ih =>
    intro r m hx h
    rw [List.cons_append, List.infix_cons_iff] at h
    rcases h with h | h
    · exfalso
      rw [List.cons_prefix_cons] at h
      apply hx
      rw [← h.1]
      exact List.mem_cons_self _ _
    · exact ih r m (fun hm => hx (List.mem_cons_of_mem x hm)) h

theorem replaceAll_cons_pass {b : Nat} {m rp t : List Nat} (hb : b ≠ 0) :
    replaceAll (0 :: m) rp (b :: t) = b :: replaceAll (0 :: m) rp t := by
  rw [replaceAll]
  rw [if_neg]
  intro hc
  have := List.isPrefixOf_iff_prefix.mp hc.2
  rw [List.cons_prefix_cons] at this
  exact hb this.1.symm

theorem replaceAll_append_pass {m rp : List Nat} :
    ∀ {s : List Nat} (t : List Nat), (0 : Nat) ∉ s →
    replaceAll (0 :: m) rp (s ++ t) = s ++ replaceAll (0 :: m) rp t := by
  intro s
  induction s with
  | nil => intro t _; simp
  | cons x s ih =>
    intro t hx
    rw [List.cons_append,
      replaceAll_cons_pass (fun h0 => hx (by simp [h0])),
      ih t (fun hm => hx (List.mem_cons_of_mem x hm))]
    simp

theorem replaceAll_exact {needle rp t : List Nat} (hne : needle ≠ []) :
    replaceAll needle rp (needle ++ t) = rp ++ replaceAll needle rp t := by
  cases hn : needle with
  | nil => exact absurd hn hne
  | cons n0 ns =>
    rw [← hn]
    have hcons : needle ++ t = n0 :: (ns ++ t) := by rw [hn]; rfl
    rw [hcons, replaceAll]
    rw [if_pos ⟨hne, by rw [← hcons]; exact List.isPrefixOf_iff_prefix.mpr (List.prefix_append needle t)⟩]
    congr 1
    rw [← hcons, List.drop_left]

theorem replaceAll_no_occurrence {needle rp : List Nat} :
    ∀ {l : List Nat}, ¬ needle <:+: l → replaceAll needle rp l = l := by
  intro l
  induction l with
  | nil => intro _; rw [replaceAll]
  | cons h t ih =>
    intro hni
    rw [replaceAll, if_neg, ih (fun hx => hni (List.infix_cons hx))]
    intro hc
    exact hni ((List.isPrefixOf_iff_prefix.mp hc.2).isInfix)

theorem restoreFrom_append_pass {s : List Nat} (hs : (0 : Nat) ∉ s) :
    ∀ (ss : List (List Nat)) (n : Nat) (t : List Nat),
    restoreFrom n (s ++ t) ss = s ++ restoreFrom n t ss := by
  intro ss
  induction ss with
  | nil => intro n t; rfl
  | cons s2 ss ih =>
    intro n t
    rw [restoreFrom, restoreFrom]
    rw [placeholder_eq n]
    rw [replaceAll_append_pass t hs]
    exact ih (n + 1) _

/-! ## Structure of the shielded text -/

theorem protectGo_cons_plain {b : Nat} (l : List Nat) (n : Nat)
    (h96 : b ≠ 96) (h34 : b ≠ 34) (h39 : b ≠ 39) :
    protectGo (b :: l) n =
      (pushByteAsChar b ++ (protectGo l n).1, (protectGo l n).2) :=
  protectGo.eq_5 n b l (fun h => h96 h) (fun h => h34 h) (fun h => h39 h)

theorem protectGo_spans_mem : ∀ (l : List Nat) (n : Nat),
    ∀ s ∈ (protectGo l n).2, ∀ b ∈ s, b ∈ l := by
  intro l n
  induction l, n using protectGo.induct with
  | case1 n => simp [protectGo]
  | case2 rest n p ih =>
    intro s hs b hb
    simp only [protectGo] at hs
    rw [List.mem_cons] at hs
    rcases hs with hs | hs
    · subst hs
      rw [List.mem_cons] at hb
      rcases hb with hb | hb
      · simp [hb]
      · have : b ∈ rest := by
          rw [← scanTemplate_append rest]
          exact List.mem_append_left _ hb
        exact List.mem_cons_of_mem _ this
    · have hmem := ih s hs b hb
      have : b ∈ rest := by
        rw [← scanTemplate_append rest]
        exact List.mem_append_right _ hmem
      exact List.mem_cons_of_mem _ this
  | case3 rest n p ih =>
    intro s hs b hb
    simp only [protectGo] at hs
    rw [List.mem_cons] at hs
    rcases hs with hs | hs
    · subst hs
      rw [List.mem_cons] at hb
      rcases hb with hb | hb
      · simp [hb]
      · have : b ∈ rest := by
          rw [← scanQuote_append 34 rest]
          exact List.mem_append_left _ hb
        exact List.mem_cons_of_mem _ this
    · have hmem := ih s hs b hb
      have : b ∈ rest := by
        rw [← scanQuote_append 34 rest]
        exact List.mem_append_right _ hmem
      exact List.mem_cons_of_mem _ this
  | case4 rest n p ih =>
    intro s hs b hb
    simp only [protectGo] at hs
    rw [List.mem_cons] at hs
    rcases hs with hs | hs
    · subst hs
      rw [List.mem_cons] at hb
      rcases hb with hb | hb
      · simp [hb]
      · have : b ∈ rest := by
          rw [← scanQuote_append 39 rest]
          exact List.mem_append_left _ hb
        exact List.mem_cons_of_mem _ this
    · have hmem := ih s hs b hb
      have : b ∈ rest := by
        rw [← scanQuote_append 39 rest]
        exact List.mem_append_right _ hmem
      exact List.mem_cons_of_mem _ this
  | case5 b2 rest n h1 h2 h3 ih =>
    intro s hs b hb
    rw [protectGo_cons_plain rest n (fun h => h1 h) (fun h => h2 h) (fun h => h3 h)] at hs
    exact List.mem_cons_of_mem _ (ih s hs b hb)

theorem protectGo_head_ne83 : ∀ (l : List Nat) (n : Nat),
    (∀ b ∈ l, b < 128 ∧ b ≠ 83) →
    ∀ h t, (protectGo l n).1 = h :: t → h ≠ 83 := by
  intro l n
  induction l, n using protectGo.induct with
  | case1 n => intro _ h t hout; simp [protectGo] at hout
  | case2 rest n p ih =>
    intro _ h t hout
    simp only [protectGo] at hout
    rw [placeholder_append_cons, List.cons.injEq] at hout
    omega
  | case3 rest n p ih =>
    intro _ h t hout
    simp only [protectGo] at hout
    rw [placeholder_append_cons, List.cons.injEq] at hout
    omega
  | case4 rest n p ih =>
    intro _ h t hout
    simp only [protectGo] at hout
    rw [placeholder_append_cons, List.cons.injEq] at hout
    omega
  | case5 b2 rest n h1 h2 h3 ih =>
    intro hsafe h t hout
    rw [protectGo_cons_plain rest n (fun h => h1 h) (fun h => h2 h) (fun h => h3 h)]
      at hout
    have hb2 := hsafe b2 (List.mem_cons_self _ _)
    rw [pushByteAsChar, if_pos hb2.1] at hout
    rw [List.cons_append, List.cons.injEq] at hout
    omega

theorem prefix_compare : ∀ (a b t : List Nat), (0 : Nat) ∉ a → (0 : Nat) ∉ b →
    a ++ [0] <+: b ++ 0 :: t → a = b := by
  intro a
  induction a with
  | nil =>
    intro b t _ hb h
    cases b with
    | nil => rfl
    | cons y b2 =>
      exfalso
      rw [List.nil_append, List.cons_append, List.cons_prefix_cons] at h
      exact hb (by rw [h.1]; exact List.mem_cons_self _ _)
  | cons x a2 ih =>
    intro b t hx hb h
    cases b with
    | nil =>
      exfalso
      rw [List.cons_append, List.nil_append, List.cons_prefix_cons] at h
      exact hx (by rw [← h.1]; exact List.mem_cons_self _ _)
    | cons y b2 =>
      rw [List.cons_append, List.cons_append, List.cons_prefix_cons] at h
      have := ih b2 t (fun hm => hx (List.mem_cons_of_mem _ hm))
        (fun hm => hb (List.mem_cons_of_mem _ hm)) h.2
      rw [h.1, this]

theorem ph_append_not_contained {i n : Nat} {tail : List Nat}
    (hin : i < n)
    (hhead : ∀ h t, tail = h :: t → h ≠ 83)
    (htail : ¬ placeholder i <:+: tail) :
    ¬ placeholder i <:+: placeholder n ++ tail := by
  intro hinf
  rw [placeholder_append_cons n tail] at hinf
  rw [List.infix_cons_iff] at hinf
  rcases hinf with hpre | hinf
  · rw [placeholder_eq i, List.cons_prefix_cons] at hpre
    have := prefix_compare (phMid i) (phMid n) tail
      (fun hm => phMid_pos i 0 hm rfl) (fun hm => phMid_pos n 0 hm rfl) hpre.2
    exact absurd (phMid_inj this) (by omega)
  · rw [placeholder_eq i] at hinf
    have h2 : (0 :: (phMid i ++ [0])) <:+: (0 :: tail) :=
      infix_drop_clean_prefix (phMid n) (0 :: tail) (phMid i ++ [0])
        (fun hm => phMid_pos n _ hm rfl) hinf
    rw [List.infix_cons_iff] at h2
    rcases h2 with hpre | h2
    · rw [List.cons_prefix_cons] at hpre
      have hp2 := hpre.2
      obtain ⟨mtail, hmt⟩ := phMid_head i
      rw [hmt] at hp2
      cases tail with
      | nil =>
        have := hp2.length_le
        simp at this
      | cons h0 t0 =>
        rw [List.cons_append, List.cons_prefix_cons] at hp2
        exact hhead h0 t0 rfl hp2.1.symm
    · apply htail
      rw [placeholder_eq i]
      exact h2

theorem protectGo_not_contained : ∀ (l : List Nat) (n : Nat),
    (∀ b ∈ l, b < 128 ∧ b ≠ 0 ∧ b ≠ 83) →
    ∀ i, i < n → ¬ placeholder i <:+: (protectGo l n).1 := by
  intro l n
  induction l, n using protectGo.induct with
  | case1 n =>
    intro _ i _ h
    simp only [protectGo] at h
    rw [placeholder_eq] at h
    have := h.length_le
    simp at this
  | case2 rest n p ih =>
    intro hsafe i hi
    have hsub : ∀ b ∈ (scanTemplate rest).2, b < 128 ∧ b ≠ 0 ∧ b ≠ 83 := by
      intro b hb
      apply hsafe
      apply List.mem_cons_of_mem
      rw [← scanTemplate_append rest]
      exact List.mem_append_right _ hb
    simp only [protectGo]
    apply ph_append_not_contained hi
    · intro h t hout
      exact protectGo_head_ne83 _ _ (fun b hb => ⟨(hsub b hb).1, (hsub b hb).2.2⟩) h t hout
    · exact ih hsub i (by omega)
  | case3 rest n p ih =>
    intro hsafe i hi
    have hsub : ∀ b ∈ (scanQuote 34 rest).2, b < 128 ∧ b ≠ 0 ∧ b ≠ 83 := by
      intro b hb
      apply hsafe
      apply List.mem_cons_of_mem
      rw [← scanQuote_append 34 rest]
      exact List.mem_append_right _ hb
    simp only [protectGo]
    apply ph_append_not_contained hi
    · intro h t hout
      exact protectGo_head_ne83 _ _ (fun b hb => ⟨(hsub b hb).1, (hsub b hb).2.2⟩) h t hout
    · exact ih hsub i (by omega)
  | case4 rest n p ih =>
    intro hsafe i hi
    have hsub : ∀ b ∈ (scanQuote 39 rest).2, b < 128 ∧ b ≠ 0 ∧ b ≠ 83 := by
      intro b hb
      apply hsafe
      apply List.mem_cons_of_mem
      rw [← scanQuote_append 39 rest]
      exact List.mem_append_right _ hb
    simp only [protectGo]
    apply ph_append_not_contained hi
    · intro h t hout
      exact protectGo_head_ne83 _ _ (fun b hb => ⟨(hsub b hb).1, (hsub b hb).2.2⟩) h t hout
    · exact ih hsub i (by omega)
  | case5 b2 rest n h1 h2 h3 ih =>
    intro hsafe i hi hinf
    have hb2 := hsafe b2 (List.mem_cons_self _ _)
    rw [protectGo_cons_plain rest n (fun h => h1 h) (fun h => h2 h) (fun h => h3 h)]
      at hinf
    rw [pushByteAsChar, if_pos hb2.1] at hinf
    rw [List.cons_append, List.infix_cons_iff] at hinf
    rcases hinf with hpre | hinf
    · rw [placeholder_eq, List.cons_prefix_cons] at hpre
      exact hb2.2.1 hpre.1.symm
    · exact ih (fun b hb => hsafe b (List.mem_cons_of_mem _ hb)) i hi hinf

/-- Round trip of the shield on ASCII, NUL-free input with no `S` (0x53)
    byte: the restoration loop reinserts every span exactly. -/
theorem protectGo_roundtrip : ∀ (l : List Nat) (n : Nat),
    (∀ b ∈ l, b < 128 ∧ b ≠ 0 ∧ b ≠ 83) →
    restoreFrom n (protectGo l n).1 (protectGo l n).2 = l := by
  intro l n
  induction l, n using protectGo.induct with
  | case1 n => intro _; simp [protectGo, restoreFrom]
  | case2 rest n p ih =>
    intro hsafe
    have hsub : ∀ b ∈ (scanTemplate rest).2, b < 128 ∧ b ≠ 0 ∧ b ≠ 83 := by
      intro b hb
      apply hsafe
      apply List.mem_cons_of_mem
      rw [← scanTemplate_append rest]
      exact List.mem_append_right _ hb
    have hspan0 : (0 : Nat) ∉ 96 :: (scanTemplate rest).1 := by
      intro hm
      rw [List.mem_cons] at hm
      rcases hm with hm | hm
      · omega
      · have : (0 : Nat) ∈ rest := by
          rw [← scanTemplate_append rest]
          exact List.mem_append_left _ hm
        exact (hsafe 0 (List.mem_cons_of_mem _ this)).2.1 rfl
    simp only [protectGo]
    rw [restoreFrom]
    rw [replaceAll_exact (placeholder_ne_nil n)]
    rw [replaceAll_no_occurrence
      (protectGo_not_contained _ _ hsub n (by omega))]
    rw [restoreFrom_append_pass hspan0]
    rw [ih hsub]
    rw [List.cons_append, List.cons.injEq]
    exact ⟨rfl, scanTemplate_append rest⟩
  | case3 rest n p ih =>
    intro hsafe
    have hsub : ∀ b ∈ (scanQuote 34 rest).2, b < 128 ∧ b ≠ 0 ∧ b ≠ 83 := by
      intro b hb
      apply hsafe
      apply List.mem_cons_of_mem
      rw [← scanQuote_append 34 rest]
      exact List.mem_append_right _ hb
    have hspan0 : (0 : Nat) ∉ 34 :: (scanQuote 34 rest).1 := by
      intro hm
      rw [List.mem_cons] at hm
      rcases hm with hm | hm
      · omega
      · have : (0 : Nat) ∈ rest := by
          rw [← scanQuote_append 34 rest]
          exact List.mem_append_left _ hm
        exact (hsafe 0 (List.mem_cons_of_mem _ this)).2.1 rfl
    simp only [protectGo]
    rw [restoreFrom]
    rw [replaceAll_exact (placeholder_ne_nil n)]
    rw [replaceAll_no_occurrence
      (protectGo_not_contained _ _ hsub n (by omega))]
    rw [restoreFrom_append_pass hspan0]
    rw [ih hsub]
    rw [List.cons_append, List.cons.injEq]
    exact ⟨rfl, scanQuote_append 34 rest⟩
  | case4 rest n p ih =>
    intro hsafe
    have hsub : ∀ b ∈ (scanQuote 39 rest).2, b < 128 ∧ b ≠ 0 ∧ b ≠ 83 := by
      intro b hb
      apply hsafe
      apply List.mem_cons_of_mem
      rw [← scanQuote_append 39 rest]
      exact List.mem_append_right _ hb
    have hspan0 : (0 : Nat) ∉ 39 :: (scanQuote 39 rest).1 := by
      intro hm
      rw [List.mem_cons] at hm
      rcases hm with hm | hm
      · omega
      · have : (0 : Nat) ∈ rest := by
          rw [← scanQuote_append 39 rest]
          exact List.mem_append_left _ hm
        exact (hsafe 0 (List.mem_cons_of_mem _ this)).2.1 rfl
    simp only [protectGo]
    rw [restoreFrom]
    rw [replaceAll_exact (placeholder_ne_nil n)]
    rw [replaceAll_no_occurrence
      (protectGo_not_contained _ _ hsub n (by omega))]
    rw [restoreFrom_append_pass hspan0]
    rw [ih hsub]
    rw [List.cons_append, List.cons.injEq]
    exact ⟨rfl, scanQuote_append 39 rest⟩
  | case5 b2 rest n h1 h2 h3 ih =>
    intro hsafe
    have hb2 := hsafe b2 (List.mem_cons_self _ _)
    rw [protectGo_cons_plain rest n (fun h => h1 h) (fun h => h2 h) (fun h => h3 h)]
    rw [pushByteAsChar, if_pos hb2.1]
    have : (0 : Nat) ∉ [b2] := by
      intro hm
      rw [List.mem_singleton] at hm
      exact hb2.2.1 hm.symm
    rw [restoreFrom_append_pass this]
    rw [ih (fun b hb => hsafe b (List.mem_cons_of_mem _ hb))]
    rfl

theorem restoreStrings_eq_restoreFrom (code : List Nat) (spans : List (List Nat)) :
    restoreStrings code spans = restoreFrom 0 code spans := by
  have key : ∀ (ss : List (List Nat)) (n : Nat) (c : List Nat),
      (List.enumFrom n ss).foldl
        (fun acc p => replaceAll (placeholder p.1) p.2 acc) c =
      restoreFrom n c ss := by
    intro ss
    induction ss with
    | nil => intro n c; rfl
    | cons s ss ih =>
      intro n c
      rw [List.enumFrom_cons, List.foldl_cons, restoreFrom]
      exact ih (n + 1) _
  rw [restoreStrings]
  split
  · rename_i hs
    subst hs
    rfl
  · rw [show (spans.enum : List (Nat × List Nat)) = List.enumFrom 0 spans from rfl]
    exact key spans 0 code

/-! ## Identity lemmas for restricted inputs -/

theorem protectGo_plain_all : ∀ (l : List Nat) (n : Nat),
    (∀ b ∈ l, b < 128 ∧ b ≠ 34 ∧ b ≠ 39 ∧ b ≠ 96) →
    protectGo l n = (l, []) := by
  intro l
  induction l with
  | nil => intro n _; simp [protectGo]
  | cons b t ih =>
    intro n hsafe
    have hb := hsafe b (List.mem_cons_self _ _)
    rw [protectGo_cons_plain t n hb.2.2.2 hb.2.1 hb.2.2.1]
    rw [ih n (fun x hx => hsafe x (List.mem_cons_of_mem _ hx))]
    rw [pushByteAsChar, if_pos hb.1]
    rfl

theorem protectGo_plain_prefix : ∀ (a : List Nat) (r : List Nat) (n : Nat),
    (∀ b ∈ a, b < 128 ∧ b ≠ 34 ∧ b ≠ 39 ∧ b ≠ 96) →
    protectGo (a ++ r) n = (a ++ (protectGo r n).1, (protectGo r n).2) := by
  intro a
  induction a with
  | nil => intro r n _; simp
  | cons b t ih =>
    intro r n hsafe
    have hb := hsafe b (List.mem_cons_self _ _)
    rw [List.cons_append]
    rw [protectGo_cons_plain (t ++ r) n hb.2.2.2 hb.2.1 hb.2.2.1]
    rw [ih r n (fun x hx => hsafe x (List.mem_cons_of_mem _ hx))]
    rw [pushByteAsChar, if_pos hb.1]
    rfl

theorem scanQuote_clean : ∀ (c : List Nat) (r : List Nat),
    (∀ x ∈ c, x ≠ 34 ∧ x ≠ 92 ∧ x ≠ 10) →
    scanQuote 34 (c ++ 34 :: r) = (c ++ [34], r) := by
  intro c
  induction c with
  | nil =>
    intro r _
    rw [List.nil_append]
    rw [scanQuote.eq_def]
    split
    · rename_i heq
      cases heq
    · rename_i c2 rest heq
      rw [List.cons.injEq] at heq
      omega
    · rename_i b rest heq
      rw [List.cons.injEq] at heq
      obtain ⟨hb, hr⟩ := heq
      subst hb hr
      rw [if_pos rfl]
      rfl
  | cons x c ih =>
    intro r hsafe
    have hx := hsafe x (List.mem_cons_self _ _)
    rw [List.cons_append]
    rw [scanQuote.eq_def]
    split
    · rename_i heq
      cases heq
    · rename_i c2 rest heq
      rw [List.cons.injEq] at heq
      exact absurd heq.1 hx.2.1
    · rename_i b rest heq
      rw [List.cons.injEq] at heq
      obtain ⟨hb, hr⟩ := heq
      subst hb
      rw [if_neg (by omega), if_neg (by omega)]
      rw [← hr, ih r (fun y hy => hsafe y (List.mem_cons_of_mem _ hy))]
      simp

theorem stripBlock_no47 : ∀ (l : List Nat), (47 : Nat) ∉ l → stripBlock l = l := by
  intro l
  induction l using stripBlock.induct with
  | case1 => intro _; rw [stripBlock]
  | case2 t hc r _ =>
    intro h47
    exact absurd (List.mem_cons_self _ _) h47
  | case3 t hc _ =>
    intro h47
    exact absurd (List.mem_cons_self _ _) h47
  | case4 h t hne ih =>
    intro h47
    rw [stripBlock.eq_def]
    split
    · rename_i heq
      exact absurd heq (by simp)
    · rename_i t2 heq
      rw [List.cons.injEq] at heq
      exact absurd (by rw [heq.1]; exact List.mem_cons_self _ _) h47
    · rename_i h2 t2 hx heq
      rw [List.cons.injEq] at heq
      obtain ⟨hh, ht⟩ := heq
      subst hh ht
      rw [ih (fun hm => h47 (List.mem_cons_of_mem _ hm))]

theorem matchMarker_none {markers : List (Nat × List Nat)} {h : Nat} {t : List Nat}
    (hne : ∀ m ∈ markers, m.1 ≠ h) : matchMarker markers (h :: t) = none := by
  rw [matchMarker]
  induction markers with
  | nil => rfl
  | cons m ms ih =>
    rw [List.find?_cons]
    have : ((m.1 :: m.2).isPrefixOf (h :: t)) = false := by
      rw [Bool.eq_false_iff]
      intro hp
      have := List.isPrefixOf_iff_prefix.mp hp
      rw [List.cons_prefix_cons] at this
      exact hne m (List.mem_cons_self _ _) this.1
    rw [this]
    exact ih (fun m2 hm2 => hne m2 (List.mem_cons_of_mem _ hm2))

theorem stripSingleM_id {markers : List (Nat × List Nat)} :
    ∀ (l : List Nat), (∀ b ∈ l, ∀ m ∈ markers, m.1 ≠ b) →
    stripSingleM markers l = l := by
  intro l
  induction l with
  | nil => intro _; rw [stripSingleM]
  | cons h t ih =>
    intro hne
    rw [stripSingleM]
    rw [matchMarker_none (fun m hm => hne h (List.mem_cons_self _ _) m hm)]
    rw [ih (fun b hb m hm => hne b (List.mem_cons_of_mem _ hb) m hm)]

theorem collapseNl3_id : ∀ (l : List Nat), ¬ ([10, 10, 10] <:+: l) →
    collapseNl3 l = l := by
  intro l
  induction l using collapseNl3.induct with
  | case1 => intro _; rw [collapseNl3]
  | case2 t p ih =>
    intro h3
    have happ := nlRun_append t
    rw [collapseNl3]
    by_cases hge : (nlRun t).1 + 1 ≥ 3
    · exfalso
      apply h3
      have h2 : 2 ≤ (nlRun t).1 := by omega
      have : [10, 10, 10] <+: 10 :: t := by
        rw [← happ]
        cases hr : (nlRun t).1 with
        | zero => omega
        | succ k =>
          cases k with
          | zero => omega
          | succ k2 =>
            rw [List.replicate_succ, List.replicate_succ]
            rw [List.cons_prefix_cons]
            refine ⟨rfl, ?_⟩
            rw [List.cons_append, List.cons_append, List.cons_prefix_cons]
            refine ⟨rfl, ?_⟩
            rw [List.cons_prefix_cons]
            exact ⟨rfl, List.nil_prefix⟩
      exact this.isInfix
    · rw [if_neg hge]
      have hsuf : (nlRun t).2 <:+ 10 :: t :=
        List.IsSuffix.trans ⟨List.replicate (nlRun t).1 10, happ⟩ (List.suffix_cons 10 t)
      rw [ih (fun hx => h3 (hx.trans hsuf.isInfix))]
      rw [List.replicate_succ, List.cons_append, List.cons.injEq]
      exact ⟨rfl, happ⟩
  | case3 b t hb ih =>
    intro h3
    rw [collapseNl3.eq_def]
    split
    · rename_i heq
      exact absurd heq (by simp)
    · rename_i t2 heq
      rw [List.cons.injEq] at heq
      exact absurd heq.1 (fun hx => hb hx)
    · rename_i b2 t2 hx heq
      rw [List.cons.injEq] at heq
      obtain ⟨hh, ht⟩ := heq
      subst hh ht
      rw [ih (fun hx2 => h3 (List.infix_cons hx2))]

theorem intercalateNl_cons (a : List Nat) (ls : List (List Nat)) (hne : ls ≠ []) :
    List.intercalate [10] (a :: ls) = a ++ 10 :: List.intercalate [10] ls := by
  cases ls with
  | nil => exact absurd rfl hne
  | cons b ls2 => simp [List.intercalate, List.intersperse]

theorem splitNl_cons_ne {b : Nat} {t s : List Nat} {ss : List (List Nat)}
    (hb : b ≠ 10) (hsp : splitNl t = s :: ss) :
    splitNl (b :: t) = (b :: s) :: ss := by
  rw [splitNl.eq_def]
  split
  · rename_i heq
    exact absurd heq (by simp)
  · rename_i t2 heq
    rw [List.cons.injEq] at heq
    exact absurd heq.1 hb
  · rename_i b2 t2 hx heq
    rw [List.cons.injEq] at heq
    obtain ⟨hh, ht⟩ := heq
    subst hh ht
    rw [hsp]

theorem splitNl_ne_nil : ∀ l : List Nat, splitNl l ≠ [] := by
  intro l
  induction l using splitNl.induct with
  | case1 => simp [splitNl]
  | case2 t ih => simp [splitNl]
  | case3 b t hb hsp ih => exact absurd hsp ih
  | case4 b t hb s ss hsp ih =>
    rw [splitNl_cons_ne (fun h => hb h) hsp]
    simp

theorem splitNl_join : ∀ l : List Nat, List.intercalate [10] (splitNl l) = l := by
  intro l
  induction l using splitNl.induct with
  | case1 => simp [splitNl, List.intercalate]
  | case2 t ih =>
    simp only [splitNl]
    rw [intercalateNl_cons [] (splitNl t) (splitNl_ne_nil t), ih]
    rfl
  | case3 b t hb hsp ih => exact absurd hsp (splitNl_ne_nil t)
  | case4 b t hb s ss hsp ih =>
    rw [splitNl_cons_ne (fun h => hb h) hsp]
    rw [hsp] at ih
    cases ss with
    | nil =>
      have h1 : List.intercalate [10] [s] = s := by simp [List.intercalate]
      have h2 : List.intercalate [10] [b :: s] = b :: s := by simp [List.intercalate]
      rw [h2, List.cons.injEq]
      rw [h1] at ih
      exact ⟨rfl, ih⟩
    | cons s2 ss2 =>
      rw [intercalateNl_cons _ _ (by simp)] at ih ⊢
      rw [List.cons_append, List.cons.injEq]
      exact ⟨rfl, ih⟩

theorem splitNl_mem : ∀ (l : List Nat), ∀ line ∈ splitNl l, ∀ b ∈ line, b ∈ l := by
  intro l
  induction l using splitNl.induct with
  | case1 => simp [splitNl]
  | case2 t ih =>
    intro line hline b hbline
    simp only [splitNl, List.mem_cons] at hline
    rcases hline with hline | hline
    · subst hline; cases hbline
    · exact List.mem_cons_of_mem _ (ih line hline b hbline)
  | case3 b2 t hb hsp ih => exact absurd hsp (splitNl_ne_nil t)
  | case4 b2 t hb s ss hsp ih =>
    intro line hline b hbline
    rw [splitNl_cons_ne (fun h => hb h) hsp] at hline
    rw [List.mem_cons] at hline
    rcases hline with hline | hline
    · subst hline
      rw [List.mem_cons] at hbline
      rcases hbline with hbline | hbline
      · subst hbline; exact List.mem_cons_self _ _
      · have : b ∈ t := ih s (by rw [hsp]; exact List.mem_cons_self _ _) b hbline
        exact List.mem_cons_of_mem _ this
    · have : b ∈ t := ih line (by rw [hsp]; exact List.mem_cons_of_mem _ hline) b hbline
      exact List.mem_cons_of_mem _ this

theorem mapLines_id {f : List Nat → List Nat} {l : List Nat}
    (hf : ∀ line ∈ splitNl l, f line = line) : mapLines f l = l := by
  rw [mapLines]
  rw [List.map_congr_left hf, List.map_id']
  exact splitNl_join l

theorem rstrip_of_no_ws {line : List Nat}
    (h : ∀ b ∈ line, b ≠ 32 ∧ b ≠ 9) : rstripWsTab line = line := by
  rw [rstripWsTab]
  cases hr : line.reverse with
  | nil =>
    have : line = [] := by simpa using congrArg List.reverse hr
    simp [this]
  | cons d rest =>
    have hd : d ∈ line := by
      rw [← List.mem_reverse, hr]
      exact List.mem_cons_self _ _
    rw [List.dropWhile_cons]
    rw [if_neg (by
      have := h d hd
      simp only [Bool.or_eq_true, beq_iff_eq]
      intro hx
      rcases hx with hx | hx
      · exact this.1 hx
      · exact this.2 hx)]
    rw [← hr, List.reverse_reverse]

theorem rstrip_of_last_not_ws {line : List Nat} {d : Nat} {rest : List Nat}
    (hr : line.reverse = d :: rest) (h32 : d ≠ 32) (h9 : d ≠ 9) :
    rstripWsTab line = line := by
  rw [rstripWsTab, hr]
  rw [List.dropWhile_cons]
  rw [if_neg (by
    simp only [Bool.or_eq_true, beq_iff_eq]
    intro hx
    rcases hx with hx | hx
    · exact h32 hx
    · exact h9 hx)]
  rw [← hr, List.reverse_reverse]

/-! ## Claim theorems -/

/-- **C4**: for every extension and every input whose byte length is below 2
    or above 500 KiB, both `remove_comments` and `minify` return the input
    unchanged. -/
theorem sizeGuard_noop (x ext : List Nat)
    (h : x.length < 2 ∨ x.length > 500 * 1024) :
    removeComments x ext = x ∧ minifyCode x ext = x := by
  have hg : x.length < 2 ∨ x.length > MAX_PROCESS_SIZE := by
    simpa [MAX_PROCESS_SIZE] using h
  constructor
  · rw [removeComments, if_pos hg]
  · rw [minifyCode, if_pos hg]

theorem sizeGuard_noop_witness :
    (([97] : List Nat).length < 2 ∨ ([97] : List Nat).length > 500 * 1024) ∧
    (removeComments [97] (ascii "js") = [97] ∧ minifyCode [97] (ascii "js") = [97]) :=
  ⟨Or.inl (by decide), sizeGuard_noop [97] (ascii "js") (Or.inl (by decide))⟩

/-- **C5**: for every input and every extension whose normalization (leading
    dots stripped, lowercased) is not a key of the grammar table,
    `remove_comments` returns the input unchanged (and, being a total
    function, never errors). -/
theorem removeComments_unknown_ext (x ext : List Nat)
    (h : lookupGrammar (normalizeExt ext) = none) :
    removeComments x ext = x :=
  removeComments_of_lookup_none x ext h

theorem removeComments_unknown_ext_witness :
    lookupGrammar (normalizeExt (ascii "zzz")) = none ∧
    removeComments (ascii "abc def") (ascii "zzz") = ascii "abc def" :=
  ⟨by decide, removeComments_unknown_ext (ascii "abc def") (ascii "zzz") (by decide)⟩

/-- **C10**: the grammar table has no `"json"` key (only `"jsonc"`), so
    `remove_comments` is the identity on every input for extension `"json"`;
    comment stripping for plain `.json` therefore only happens in the minify
    branch. -/
theorem removeComments_json_noop :
    (∀ x : List Nat, removeComments x (ascii "json") = x) ∧
    lookupGrammar (normalizeExt (ascii "json")) = none ∧
    (lookupGrammar (normalizeExt (ascii "jsonc"))).isSome = true :=
  ⟨fun x => removeComments_of_lookup_none x (ascii "json") (by decide),
   by decide, by decide⟩

/-- **C6**: for every recognized extension and in-bounds input,
    `remove_comments` coincides with the spec's staged pipeline
    (`specStripComments`): shield when the grammar protects literals, delete
    docstring then block then single-line matches on the shielded text,
    restore the spans, collapse runs of 3 or more newlines to exactly two,
    and strip trailing horizontal whitespace on every line, in that order. -/
theorem removeComments_stage_order (code extension : List Nat) (g : CommentPattern)
    (h2 : 2 ≤ code.length) (hM : code.length ≤ MAX_PROCESS_SIZE)
    (hg : lookupGrammar (normalizeExt extension) = some g) :
    removeComments code extension = specStripComments g code :=
  removeComments_pipeline code extension g (by omega) hg

theorem removeComments_stage_order_witness :
    (2 ≤ (ascii "a//b\n").length ∧ (ascii "a//b\n").length ≤ MAX_PROCESS_SIZE ∧
      lookupGrammar (normalizeExt (ascii "js")) =
        some ⟨some .cstyle, some .cstyle, none, true⟩) ∧
    removeComments (ascii "a//b\n") (ascii "js") =
      specStripComments ⟨some .cstyle, some .cstyle, none, true⟩ (ascii "a//b\n") :=
  ⟨⟨by decide, by decide, by decide⟩,
   removeComments_stage_order (ascii "a//b\n") (ascii "js")
     ⟨some .cstyle, some .cstyle, none, true⟩ (by decide) (by decide) (by decide)⟩

/-- **C8**: the two concrete `remove_comments` examples of the spec for
    extension `"js"`: single-line comments are removed (with the trailing
    whitespace they leave behind stripped), and a `//` inside a double-quoted
    string is left untouched. -/
theorem removeComments_js_examples :
    removeComments (ascii "// hi\nlet x = 1; // trailing\n") (ascii "js") =
      ascii "\nlet x = 1;\n" ∧
    removeComments (ascii "x = \"a // b\"\n") (ascii "js") =
      ascii "x = \"a // b\"\n" := by
  constructor
  · rw [show ascii "// hi\nlet x = 1; // trailing\n" =
      [47, 47, 32, 104, 105, 10, 108, 101, 116, 32, 120, 32, 61, 32, 49, 59,
       32, 47, 47, 32, 116, 114, 97, 105, 108, 105, 110, 103, 10] from by decide]
    rw [show ascii "\nlet x = 1;\n" =
      [10, 108, 101, 116, 32, 120, 32, 61, 32, 49, 59, 10] from by decide]
    rw [removeComments_pipeline _ _ ⟨some .cstyle, some .cstyle, none, true⟩
      (by decide) (by decide)]
    have h1 : protectStrings [47, 47, 32, 104, 105, 10, 108, 101, 116, 32, 120,
        32, 61, 32, 49, 59, 32, 47, 47, 32, 116, 114, 97, 105, 108, 105, 110,
        103, 10] =
        ([47, 47, 32, 104, 105, 10, 108, 101, 116, 32, 120, 32, 61, 32, 49, 59,
          32, 47, 47, 32, 116, 114, 97, 105, 108, 105, 110, 103, 10], []) := by
      simp [protectStrings, protectGo, pushByteAsChar]
    have h2 : stripBlock [47, 47, 32, 104, 105, 10, 108, 101, 116, 32, 120, 32,
        61, 32, 49, 59, 32, 47, 47, 32, 116, 114, 97, 105, 108, 105, 110, 103,
        10] =
        [47, 47, 32, 104, 105, 10, 108, 101, 116, 32, 120, 32, 61, 32, 49, 59,
         32, 47, 47, 32, 116, 114, 97, 105, 108, 105, 110, 103, 10] := by
      simp [stripBlock, afterBlockClose]
    have h3 : stripSingleM [(47, [47])] [47, 47, 32, 104, 105, 10, 108, 101,
        116, 32, 120, 32, 61, 32, 49, 59, 32, 47, 47, 32, 116, 114, 97, 105,
        108, 105, 110, 103, 10] =
        [10, 108, 101, 116, 32, 120, 32, 61, 32, 49, 59, 32, 10] := by
      simp [stripSingleM, matchMarker, dropToNl, List.isPrefixOf, List.find?]
    have h4 : collapseNl3 [10, 108, 101, 116, 32, 120, 32, 61, 32, 49, 59, 32, 10] =
        [10, 108, 101, 116, 32, 120, 32, 61, 32, 49, 59, 32, 10] := by
      simp [collapseNl3, nlRun]
    have h5 : stripTrailingWs [10, 108, 101, 116, 32, 120, 32, 61, 32, 49, 59,
        32, 10] = [10, 108, 101, 116, 32, 120, 32, 61, 32, 49, 59, 10] := by
      simp [stripTrailingWs, mapLines, splitNl, rstripWsTab, List.intercalate]
    simp only [specStripComments, applyDoc, applyMulti, applySingle, h1, h2, h3,
      h4, h5, restoreStrings_nil, if_true]
  · rw [show ascii "x = \"a // b\"\n" =
      [120, 32, 61, 32, 34, 97, 32, 47, 47, 32, 98, 34, 10] from by decide]
    rw [removeComments_pipeline _ _ ⟨some .cstyle, some .cstyle, none, true⟩
      (by decide) (by decide)]
    have h1 : protectStrings [120, 32, 61, 32, 34, 97, 32, 47, 47, 32, 98, 34, 10] =
        ([120, 32, 61, 32, 0, 83, 84, 82, 48, 69, 78, 68, 0, 10],
         [[34, 97, 32, 47, 47, 32, 98, 34]]) := by
      simp [protectStrings, protectGo, pushByteAsChar, scanQuote, placeholder,
        natDigits, natDigitsAux]
    have h2 : stripBlock [120, 32, 61, 32, 0, 83, 84, 82, 48, 69, 78, 68, 0, 10] =
        [120, 32, 61, 32, 0, 83, 84, 82, 48, 69, 78, 68, 0, 10] := by
      simp [stripBlock, afterBlockClose]
    have h3 : stripSingleM [(47, [47])] [120, 32, 61, 32, 0, 83, 84, 82, 48, 69,
        78, 68, 0, 10] = [120, 32, 61, 32, 0, 83, 84, 82, 48, 69, 78, 68, 0, 10] := by
      simp [stripSingleM, matchMarker, dropToNl, List.isPrefixOf, List.find?]
    have h4 : restoreStrings [120, 32, 61, 32, 0, 83, 84, 82, 48, 69, 78, 68, 0, 10]
        [[34, 97, 32, 47, 47, 32, 98, 34]] =
        [120, 32, 61, 32, 34, 97, 32, 47, 47, 32, 98, 34, 10] := by
      simp [restoreStrings, replaceAll, placeholder, natDigits, natDigitsAux,
        List.isPrefixOf]
    have h5 : collapseNl3 [120, 32, 61, 32, 34, 97, 32, 47, 47, 32, 98, 34, 10] =
        [120, 32, 61, 32, 34, 97, 32, 47, 47, 32, 98, 34, 10] := by
      simp [collapseNl3, nlRun]
    have h6 : stripTrailingWs [120, 32, 61, 32, 34, 97, 32, 47, 47, 32, 98, 34, 10] =
        [120, 32, 61, 32, 34, 97, 32, 47, 47, 32, 98, 34, 10] := by
      simp [stripTrailingWs, mapLines, splitNl, rstripWsTab, List.intercalate]
    simp only [specStripComments, applyDoc, applyMulti, applySingle, h1, h2, h3,
      h4, h5, h6, if_true]

/-- **C9**: the batch driver emits exactly one progress report per record, in
    input order (each carrying the record's name), the `processed_files_count`
    sequence is exactly `1, 2, ..., N`, and the results are returned in input
    order with the ids of the corresponding inputs. -/
theorem batch_progress_order (files : List FileInput) (mode : List Nat) :
    (processFilesWithProgress files mode).2.map
        (fun p => p.processed_files_count) = List.range' 1 files.length ∧
    (processFilesWithProgress files mode).2.map
        (fun p => p.current_file_name) = files.map (fun f => f.name) ∧
    (processFilesWithProgress files mode).1.map
        (fun r => r.id) = files.map (fun f => f.id) := by
  have key : ∀ (modeStr : List Nat) (tfc tb : Nat) (fs : List FileInput)
      (cnt bytes : Nat) (saved : Int),
      (processFilesGo modeStr tfc tb fs cnt bytes saved).2.map
          (fun p => p.processed_files_count) = List.range' (cnt + 1) fs.length ∧
      (processFilesGo modeStr tfc tb fs cnt bytes saved).2.map
          (fun p => p.current_file_name) = fs.map (fun f => f.name) ∧
      (processFilesGo modeStr tfc tb fs cnt bytes saved).1.map
          (fun r => r.id) = fs.map (fun f => f.id) := by
    intro modeStr tfc tb fs
    induction fs with
    | nil => intro cnt bytes saved; simp [processFilesGo]
    | cons f fs ih =>
      intro cnt bytes saved
      obtain ⟨ih1, ih2, ih3⟩ := ih (cnt + 1)
        (bytes + f.content.length)
        (saved + ((f.content.length : Int) -
          ((match ProcessingMode.fromStr modeStr with
            | .Raw => f.content
            | .RemoveComments => removeComments f.content (extOfName f.name)
            | .Minify => minifyCode f.content (extOfName f.name)).length : Int)))
      simp only [processFilesGo, List.map_cons, List.length_cons]
      refine ⟨?_, ?_, ?_⟩
      · rw [List.range'_succ]
        simp only [List.cons.injEq, true_and]
        exact ih1
      · simp only [List.cons.injEq, true_and]
        exact ih2
      · simp only [List.cons.injEq, true_and]
        exact ih3
  exact key mode files.length ((files.map (fun f => f.content.length)).sum)
    files 0 0 0

theorem splitNl_no_nl : ∀ l : List Nat, (10 : Nat) ∉ l → splitNl l = [l] := by
  intro l
  induction l using splitNl.induct with
  | case1 => intro _; rfl
  | case2 t ih => intro h; exact absurd (List.mem_cons_self _ _) h
  | case3 b t hb hsp ih => exact absurd hsp (splitNl_ne_nil t)
  | case4 b t hb s ss hsp ih =>
    intro h
    rw [splitNl_cons_ne (fun hx => hb hx) hsp]
    have := ih (fun hm => h (List.mem_cons_of_mem _ hm))
    rw [hsp] at this
    rw [List.cons.injEq] at this
    rw [this.1, this.2]

/-- **C3 amended**: shield-then-unshield is the identity on inputs of ASCII
    bytes that contain neither a NUL byte nor the byte `S` (0x53) - the
    placeholder alphabet collisions and the non-ASCII `push(byte as char)`
    re-encoding are exactly what the counterexample exhibits; and restoring
    with an empty span list is always the identity. -/
theorem protect_restore_roundtrip (x : List Nat)
    (hx : ∀ b ∈ x, b < 128 ∧ b ≠ 0 ∧ b ≠ 83) :
    restoreStrings (protectStrings x).1 (protectStrings x).2 = x ∧
    ∀ t : List Nat, restoreStrings t [] = t := by
  refine ⟨?_, fun t => restoreStrings_nil t⟩
  rw [protectStrings, restoreStrings_eq_restoreFrom]
  exact protectGo_roundtrip x 0 hx

theorem protect_restore_roundtrip_witness :
    (∀ b ∈ ascii "ab \"c // d\" ef 'g'", b < 128 ∧ b ≠ 0 ∧ b ≠ 83) ∧
    (restoreStrings (protectStrings (ascii "ab \"c // d\" ef 'g'")).1
        (protectStrings (ascii "ab \"c // d\" ef 'g'")).2 =
      ascii "ab \"c // d\" ef 'g'" ∧
     ∀ t : List Nat, restoreStrings t [] = t) :=
  ⟨by decide, protect_restore_roundtrip _ (by decide)⟩

/-- **C2 counterexample**: `remove_comments` is not idempotent.  On
    `"a\n \n \nb"` (extension `js`) the first pass only strips the trailing
    whitespace of the two blank lines, creating a fresh run of three
    newlines - which only the second pass collapses, because the
    `TRIPLE_NEWLINES` pass runs before `TRAILING_WS` within one call. -/
theorem removeComments_not_idempotent :
    removeComments [97, 10, 32, 10, 32, 10, 98] (ascii "js") =
      [97, 10, 10, 10, 98] ∧
    removeComments (removeComments [97, 10, 32, 10, 32, 10, 98] (ascii "js"))
        (ascii "js") = [97, 10, 10, 98] ∧
    ([97, 10, 10, 98] : List Nat) ≠ [97, 10, 10, 10, 98] := by
  have hpass1 : removeComments [97, 10, 32, 10, 32, 10, 98] (ascii "js") =
      [97, 10, 10, 10, 98] := by
    rw [removeComments_pipeline _ _ ⟨some .cstyle, some .cstyle, none, true⟩
      (by decide) (by decide)]
    have h1 : protectStrings [97, 10, 32, 10, 32, 10, 98] =
        ([97, 10, 32, 10, 32, 10, 98], []) := by
      simp [protectStrings, protectGo, pushByteAsChar]
    have h2 : stripBlock [97, 10, 32, 10, 32, 10, 98] =
        [97, 10, 32, 10, 32, 10, 98] := by
      simp [stripBlock, afterBlockClose]
    have h3 : stripSingleM [(47, [47])] [97, 10, 32, 10, 32, 10, 98] =
        [97, 10, 32, 10, 32, 10, 98] := by
      simp [stripSingleM, matchMarker, dropToNl, List.isPrefixOf, List.find?]
    have h4 : collapseNl3 [97, 10, 32, 10, 32, 10, 98] =
        [97, 10, 32, 10, 32, 10, 98] := by
      simp [collapseNl3, nlRun]
    have h5 : stripTrailingWs [97, 10, 32, 10, 32, 10, 98] =
        [97, 10, 10, 10, 98] := by
      simp [stripTrailingWs, mapLines, splitNl, rstripWsTab, List.intercalate]
    simp only [specStripComments, applyDoc, applyMulti, applySingle, h1, h2, h3,
      h4, h5, restoreStrings_nil, if_true]
  refine ⟨hpass1, ?_, by decide⟩
  rw [hpass1]
  rw [removeComments_pipeline _ _ ⟨some .cstyle, some .cstyle, none, true⟩
    (by decide) (by decide)]
  have h1 : protectStrings [97, 10, 10, 10, 98] = ([97, 10, 10, 10, 98], []) := by
    simp [protectStrings, protectGo, pushByteAsChar]
  have h2 : stripBlock [97, 10, 10, 10, 98] = [97, 10, 10, 10, 98] := by
    simp [stripBlock, afterBlockClose]
  have h3 : stripSingleM [(47, [47])] [97, 10, 10, 10, 98] =
      [97, 10, 10, 10, 98] := by
    simp [stripSingleM, matchMarker, dropToNl, List.isPrefixOf, List.find?]
  have h4 : collapseNl3 [97, 10, 10, 10, 98] = [97, 10, 10, 98] := by
    simp [collapseNl3, nlRun]
  have h5 : stripTrailingWs [97, 10, 10, 98] = [97, 10, 10, 98] := by
    simp [stripTrailingWs, mapLines, splitNl, rstripWsTab, List.intercalate]
  simp only [specStripComments, applyDoc, applyMulti, applySingle, h1, h2, h3,
    h4, h5, restoreStrings_nil, if_true]

/-- **C2 amended**: idempotence fails in general (see the counterexample);
    it does hold on inputs over letters, digits and newlines with no run of
    three or more newlines - such inputs are fixed points of
    `remove_comments`, because no comment pattern, literal span, newline
    collapse or trailing-whitespace strip can touch them. -/
theorem removeComments_idempotent_amended (x : List Nat)
    (hx : ∀ b ∈ x, b = 10 ∨ (48 ≤ b ∧ b ≤ 57) ∨ (65 ≤ b ∧ b ≤ 90) ∨
      (97 ≤ b ∧ b ≤ 122))
    (h3 : ¬ [10, 10, 10] <:+: x) :
    removeComments x (ascii "js") = x ∧
    removeComments (removeComments x (ascii "js")) (ascii "js") =
      removeComments x (ascii "js") := by
  have hfix : removeComments x (ascii "js") = x := by
    by_cases hg : x.length < 2 ∨ x.length > MAX_PROCESS_SIZE
    · rw [removeComments, if_pos hg]
    · rw [removeComments_pipeline x (ascii "js")
        ⟨some .cstyle, some .cstyle, none, true⟩ hg (by decide)]
      have hps : protectStrings x = (x, []) := by
        rw [protectStrings]
        exact protectGo_plain_all x 0 (fun b hb => by
          rcases hx b hb with h | h | h | h <;> omega)
      have hblock : stripBlock x = x :=
        stripBlock_no47 x (fun hm => by
          rcases hx 47 hm with h | h | h | h <;> omega)
      have hsingle : stripSingleM [(47, [47])] x = x :=
        stripSingleM_id x (fun b hb m hm => by
          rw [List.mem_singleton] at hm
          subst hm
          rcases hx b hb with h | h | h | h <;> omega)
      have hc3 : collapseNl3 x = x := collapseNl3_id x h3
      have htw : stripTrailingWs x = x := by
        rw [stripTrailingWs]
        apply mapLines_id
        intro line hline
        apply rstrip_of_no_ws
        intro b hb
        have := hx b (splitNl_mem x line hline b hb)
        rcases this with h | h | h | h
        · omega
        · omega
        · omega
        · omega
      simp only [specStripComments, applyDoc, applyMulti, applySingle, hps,
        hblock, hsingle, hc3, htw, restoreStrings_nil, if_true]
  exact ⟨hfix, by rw [hfix, hfix]⟩

theorem removeComments_idempotent_amended_witness :
    ((∀ b ∈ ascii "ab\n\ncd", b = 10 ∨ (48 ≤ b ∧ b ≤ 57) ∨ (65 ≤ b ∧ b ≤ 90) ∨
        (97 ≤ b ∧ b ≤ 122)) ∧
      ¬ [10, 10, 10] <:+: ascii "ab\n\ncd") ∧
    (removeComments (ascii "ab\n\ncd") (ascii "js") = ascii "ab\n\ncd" ∧
      removeComments (removeComments (ascii "ab\n\ncd") (ascii "js")) (ascii "js") =
        removeComments (ascii "ab\n\ncd") (ascii "js")) :=
  ⟨⟨by decide, by decide⟩,
   removeComments_idempotent_amended (ascii "ab\n\ncd") (by decide) (by decide)⟩

/-- **C1 counterexample**: on `// "a"` (extension `js`) the shield identifies
    the span `"a"` inside the comment, the single-line pattern then matches
    the whole shielded line - including the span's placeholder - and the
    output is empty: the identified span is not byte-for-byte intact in the
    output. -/
theorem protect_literals_span_deleted :
    (protectStrings [47, 47, 32, 34, 97, 34]).2 = [[34, 97, 34]] ∧
    removeComments [47, 47, 32, 34, 97, 34] (ascii "js") = [] ∧
    ¬ ([34, 97, 34] <:+: ([] : List Nat)) := by
  have hps : protectStrings [47, 47, 32, 34, 97, 34] =
      ([47, 47, 32, 0, 83, 84, 82, 48, 69, 78, 68, 0], [[34, 97, 34]]) := by
    simp [protectStrings, protectGo, pushByteAsChar, scanQuote, placeholder,
      natDigits, natDigitsAux]
  refine ⟨by rw [hps], ?_, by simp⟩
  rw [removeComments_pipeline _ _ ⟨some .cstyle, some .cstyle, none, true⟩
    (by decide) (by decide)]
  have h2 : stripBlock [47, 47, 32, 0, 83, 84, 82, 48, 69, 78, 68, 0] =
      [47, 47, 32, 0, 83, 84, 82, 48, 69, 78, 68, 0] := by
    simp [stripBlock, afterBlockClose]
  have h3 : stripSingleM [(47, [47])] [47, 47, 32, 0, 83, 84, 82, 48, 69, 78,
      68, 0] = [] := by
    simp [stripSingleM, matchMarker, dropToNl, List.isPrefixOf, List.find?]
  have h4 : restoreStrings [] [[34, 97, 34]] = [] := by
    simp [restoreStrings, replaceAll]
  simp only [specStripComments, applyDoc, applyMulti, applySingle, hps, h2, h3,
    h4, if_true]
  simp [collapseNl3, stripTrailingWs, mapLines, splitNl, rstripWsTab,
    List.intercalate, rstripWsTab]

/-- **C1 amended**: literal protection, restricted as the counterexample
    forces.  For a double-quoted literal in code position - surrounded by
    plain identifier bytes rather than sitting inside a comment - the span\'s
    content survives byte-for-byte even when it contains comment markers such
    as `//`: `remove_comments` leaves the whole input unchanged.  (Spans whose
    placeholder is swallowed by a comment match, as in the counterexample,
    are deleted together with the comment.) -/
theorem literal_span_preserved (a c b2 : List Nat)
    (ha : ∀ b ∈ a, (48 ≤ b ∧ b ≤ 57) ∨ (65 ≤ b ∧ b ≤ 90) ∨ (97 ≤ b ∧ b ≤ 122))
    (hc : ∀ b ∈ c, ((48 ≤ b ∧ b ≤ 57) ∨ (65 ≤ b ∧ b ≤ 90) ∨ (97 ≤ b ∧ b ≤ 122)) ∨
      b = 32 ∨ b = 47 ∨ b = 42 ∨ b = 35)
    (hb2 : ∀ b ∈ b2, (48 ≤ b ∧ b ≤ 57) ∨ (65 ≤ b ∧ b ≤ 90) ∨ (97 ≤ b ∧ b ≤ 122)) :
    removeComments (a ++ 34 :: (c ++ 34 :: b2)) (ascii "js") =
      a ++ 34 :: (c ++ 34 :: b2) ∧
    (34 :: (c ++ [34])) <:+:
      removeComments (a ++ 34 :: (c ++ 34 :: b2)) (ascii "js") := by
  have hfix : removeComments (a ++ 34 :: (c ++ 34 :: b2)) (ascii "js") =
      a ++ 34 :: (c ++ 34 :: b2) := by
    by_cases hg : (a ++ 34 :: (c ++ 34 :: b2)).length < 2 ∨
        (a ++ 34 :: (c ++ 34 :: b2)).length > MAX_PROCESS_SIZE
    · rw [removeComments, if_pos hg]
    · rw [removeComments_pipeline _ (ascii "js")
        ⟨some .cstyle, some .cstyle, none, true⟩ hg (by decide)]
      have haq : ∀ b ∈ a, b < 128 ∧ b ≠ 34 ∧ b ≠ 39 ∧ b ≠ 96 := by
        intro b hb
        rcases ha b hb with h | h | h <;> omega
      have hbq : ∀ b ∈ b2, b < 128 ∧ b ≠ 34 ∧ b ≠ 39 ∧ b ≠ 96 := by
        intro b hb
        rcases hb2 b hb with h | h | h <;> omega
      have hcq : ∀ b ∈ c, b ≠ 34 ∧ b ≠ 92 ∧ b ≠ 10 := by
        intro b hb
        rcases hc b hb with (h | h | h) | h | h | h | h <;> omega
      have hph0 : placeholder 0 = [0, 83, 84, 82, 48, 69, 78, 68, 0] := by decide
      have hshield : protectStrings (a ++ 34 :: (c ++ 34 :: b2)) =
          (a ++ (placeholder 0 ++ b2), [34 :: (c ++ [34])]) := by
        rw [protectStrings, protectGo_plain_prefix a (34 :: (c ++ 34 :: b2)) 0 haq]
        simp only [protectGo, scanQuote_clean c b2 hcq,
          protectGo_plain_all b2 1 hbq]
      have hsh47 : (47 : Nat) ∉ a ++ (placeholder 0 ++ b2) := by
        intro hm
        rcases List.mem_append.mp hm with hm | hm
        · rcases ha 47 hm with h | h | h <;> omega
        · rcases List.mem_append.mp hm with hm | hm
          · rw [hph0] at hm
            simp at hm
          · rcases hb2 47 hm with h | h | h <;> omega
      have hblock : stripBlock (a ++ (placeholder 0 ++ b2)) =
          a ++ (placeholder 0 ++ b2) := stripBlock_no47 _ hsh47
      have hsingle : stripSingleM [(47, [47])] (a ++ (placeholder 0 ++ b2)) =
          a ++ (placeholder 0 ++ b2) :=
        stripSingleM_id _ (fun b hb m hm => by
          rw [List.mem_singleton] at hm
          subst hm
          intro heq
          have h47b : (47 : Nat) = b := heq
          subst h47b
          exact hsh47 hb)
      have h0a : (0 : Nat) ∉ a := by
        intro hm
        rcases ha 0 hm with h | h | h <;> omega
      have h0b : (0 : Nat) ∉ b2 := by
        intro hm
        rcases hb2 0 hm with h | h | h <;> omega
      have hrestore : restoreStrings (a ++ (placeholder 0 ++ b2))
          [34 :: (c ++ [34])] = a ++ 34 :: (c ++ 34 :: b2) := by
        rw [restoreStrings_eq_restoreFrom, restoreFrom, restoreFrom]
        rw [placeholder_eq 0]
        rw [replaceAll_append_pass _ h0a]
        rw [replaceAll_exact (by simp)]
        rw [replaceAll_no_occurrence (no_infix_of_no_nul h0b)]
        simp
      have h10 : (10 : Nat) ∉ a ++ 34 :: (c ++ 34 :: b2) := by
        intro hm
        rcases List.mem_append.mp hm with hm | hm
        · rcases ha 10 hm with h | h | h <;> omega
        · rw [List.mem_cons] at hm
          rcases hm with hm | hm
          · omega
          · rcases List.mem_append.mp hm with hm | hm
            · rcases hcq 10 hm with ⟨h1, h2, h3⟩
              exact h3 rfl
            · rw [List.mem_cons] at hm
              rcases hm with hm | hm
              · omega
              · rcases hb2 10 hm with h | h | h <;> omega
      have hc3 : collapseNl3 (a ++ 34 :: (c ++ 34 :: b2)) =
          a ++ 34 :: (c ++ 34 :: b2) :=
        collapseNl3_id _ (fun h => h10 (h.subset (by simp)))
      have hlast : ∃ d rest, (a ++ 34 :: (c ++ 34 :: b2)).reverse = d :: rest ∧
          d ≠ 32 ∧ d ≠ 9 := by
        rcases List.eq_nil_or_concat b2 with hb | ⟨ys, y, hys⟩
        · subst hb
          refine ⟨34, (a ++ 34 :: c).reverse, ?_, by omega, by omega⟩
          rw [show (a ++ 34 :: (c ++ 34 :: []) : List Nat) =
            (a ++ 34 :: c) ++ [34] from by simp]
          simp
        · rw [List.concat_eq_append] at hys
          subst hys
          have hy := hb2 y (by simp)
          refine ⟨y, (a ++ 34 :: (c ++ 34 :: ys)).reverse, ?_, ?_, ?_⟩
          · rw [show (a ++ 34 :: (c ++ 34 :: (ys ++ [y])) : List Nat) =
              (a ++ 34 :: (c ++ 34 :: ys)) ++ [y] from by simp]
            simp
          · rcases hy with h | h | h <;> omega
          · rcases hy with h | h | h <;> omega
      have htw : stripTrailingWs (a ++ 34 :: (c ++ 34 :: b2)) =
          a ++ 34 :: (c ++ 34 :: b2) := by
        rw [stripTrailingWs]
        apply mapLines_id
        intro line hline
        rw [splitNl_no_nl _ h10] at hline
        rw [List.mem_singleton] at hline
        subst hline
        obtain ⟨d, rest, hrev, h32, h9⟩ := hlast
        exact rstrip_of_last_not_ws hrev h32 h9
      simp only [specStripComments, applyDoc, applyMulti, applySingle, hshield,
        hblock, hsingle, hrestore, hc3, htw, if_true]
  refine ⟨hfix, ?_⟩
  rw [hfix]
  exact ⟨a, b2, by simp⟩

theorem literal_span_preserved_witness :
    ((∀ b ∈ ascii "x", (48 ≤ b ∧ b ≤ 57) ∨ (65 ≤ b ∧ b ≤ 90) ∨
        (97 ≤ b ∧ b ≤ 122)) ∧
      (∀ b ∈ ascii "a // b", ((48 ≤ b ∧ b ≤ 57) ∨ (65 ≤ b ∧ b ≤ 90) ∨
        (97 ≤ b ∧ b ≤ 122)) ∨ b = 32 ∨ b = 47 ∨ b = 42 ∨ b = 35) ∧
      (∀ b ∈ ascii "y", (48 ≤ b ∧ b ≤ 57) ∨ (65 ≤ b ∧ b ≤ 90) ∨
        (97 ≤ b ∧ b ≤ 122))) ∧
    (removeComments (ascii "x" ++ 34 :: (ascii "a // b" ++ 34 :: ascii "y"))
        (ascii "js") = ascii "x" ++ 34 :: (ascii "a // b" ++ 34 :: ascii "y") ∧
      (34 :: (ascii "a // b" ++ [34])) <:+:
        removeComments (ascii "x" ++ 34 :: (ascii "a // b" ++ 34 :: ascii "y"))
          (ascii "js")) :=
  ⟨⟨by decide, by decide, by decide⟩,
   literal_span_preserved (ascii "x") (ascii "a // b") (ascii "y")
     (by decide) (by decide) (by decide)⟩

/-- **C3 counterexample**: shield-then-unshield is not the identity on every
    NUL-free input.  On the two-byte UTF-8 input `é` the byte-by-byte
    `push(other as char)` re-encodes each byte, corrupting the text; and on
    the ASCII input `"a""b"STR0END"c"` the literal text `STR0END` between two
    placeholders forms a spurious placeholder occurrence, so restoration
    replaces the wrong bytes. -/
theorem protect_restore_not_identity :
    ((∀ b ∈ ([195, 169] : List Nat), b ≠ 0) ∧
      restoreStrings (protectStrings [195, 169]).1 (protectStrings [195, 169]).2 ≠
        [195, 169]) ∧
    ((∀ b ∈ ([34, 97, 34, 34, 98, 34, 83, 84, 82, 48, 69, 78, 68, 34, 99, 34] :
        List Nat), b ≠ 0) ∧
      restoreStrings
          (protectStrings [34, 97, 34, 34, 98, 34, 83, 84, 82, 48, 69, 78, 68,
            34, 99, 34]).1
          (protectStrings [34, 97, 34, 34, 98, 34, 83, 84, 82, 48, 69, 78, 68,
            34, 99, 34]).2 ≠
        [34, 97, 34, 34, 98, 34, 83, 84, 82, 48, 69, 78, 68, 34, 99, 34]) := by
  constructor
  · refine ⟨by decide, ?_⟩
    have hps : protectStrings [195, 169] = ([195, 131, 194, 169], []) := by
      simp [protectStrings, protectGo, pushByteAsChar]
    rw [hps, restoreStrings_nil]
    decide
  · refine ⟨by decide, ?_⟩
    have hps : protectStrings [34, 97, 34, 34, 98, 34, 83, 84, 82, 48, 69, 78,
        68, 34, 99, 34] =
        ([0, 83, 84, 82, 48, 69, 78, 68, 0, 0, 83, 84, 82, 49, 69, 78, 68, 0,
          83, 84, 82, 48, 69, 78, 68, 0, 83, 84, 82, 50, 69, 78, 68, 0],
         [[34, 97, 34], [34, 98, 34], [34, 99, 34]]) := by
      simp [protectStrings, protectGo, pushByteAsChar, scanQuote, placeholder,
        natDigits, natDigitsAux]
    rw [hps]
    have hrs : restoreStrings [0, 83, 84, 82, 48, 69, 78, 68, 0, 0, 83, 84, 82,
        49, 69, 78, 68, 0, 83, 84, 82, 48, 69, 78, 68, 0, 83, 84, 82, 50, 69,
        78, 68, 0] [[34, 97, 34], [34, 98, 34], [34, 99, 34]] =
        [34, 97, 34, 0, 83, 84, 82, 49, 69, 78, 68, 34, 97, 34, 83, 84, 82, 50,
         69, 78, 68, 0] := by
      simp [restoreStrings, replaceAll, placeholder, natDigits, natDigitsAux,
        List.isPrefixOf, List.enum, List.enumFrom, List.foldl]
    rw [hrs]
    decide

/-! ## JSON round-trip lemmas (C7) -/

theorem skipJsonWs_cons (b : Nat) (t : List Nat) (h : jsonWs b = false) :
    skipJsonWs (b :: t) = b :: t := by
  simp [skipJsonWs, List.dropWhile_cons, h]

theorem jsize_pos (v : JVal) : 1 ≤ jsize v := by
  cases v <;> simp [jsize]

theorem digits_decomp (ds r : List Nat) (h : ∀ b ∈ ds, isDigitByte b = true)
    (hr : ∀ b t, r = b :: t → isDigitByte b = false) :
    (ds ++ r).takeWhile isDigitByte = ds ∧
      (ds ++ r).dropWhile isDigitByte = r := by
  induction ds with
  | nil =>
    simp only [List.nil_append]
    cases r with
    | nil => simp
    | cons b t =>
      simp [List.takeWhile_cons, List.dropWhile_cons, hr b t rfl]
  | cons d ds ih =>
    have hd := h d (by simp)
    have h2 := ih (fun b hb => h b (by simp [hb]))
    simp [List.takeWhile_cons, List.dropWhile_cons, hd, h2.1, h2.2]

theorem takeWhile_digits (l : List Nat) :
    ∀ b ∈ l.takeWhile isDigitByte, isDigitByte b = true := by
  induction l with
  | nil => simp
  | cons x t ih =>
    by_cases hx : isDigitByte x = true
    · simp only [List.takeWhile_cons, hx, if_true]
      intro b hb
      rcases List.mem_cons.mp hb with h | h
      · exact h ▸ hx
      · exact ih b h
    · simp [List.takeWhile_cons, Bool.eq_false_iff.mpr hx]

theorem scanJsonString_reparse_aux : ∀ n, ∀ l s r : List Nat, l.length ≤ n →
    scanJsonString l = some (s, r) → SK s := by
  intro n
  induction n with
  | zero =>
    intro l s r hl h
    have hnil : l = [] := List.eq_nil_of_length_eq_zero (by omega)
    subst hnil
    simp [scanJsonString] at h
  | succ n ih =>
    intro l s r hl h
    cases l with
    | nil => simp [scanJsonString] at h
    | cons b t =>
      simp only [scanJsonString] at h
      by_cases hb34 : b = 34
      · rw [if_pos hb34] at h
        rw [Option.some.injEq, Prod.mk.injEq] at h
        obtain ⟨rfl, rfl⟩ := h
        intro r2
        simp [scanJsonString]
      · rw [if_neg hb34] at h
        by_cases hb92 : b = 92
        · rw [if_pos hb92] at h
          cases t with
          | nil => simp [scanJsonEsc] at h
          | cons c t2 =>
            simp only [scanJsonEsc] at h
            by_cases hesc : jsonEscByte c = true
            · rw [if_pos hesc] at h
              rw [Option.map_eq_some'] at h
              obtain ⟨⟨s2, r2x⟩, hscan, hpair⟩ := h
              rw [Prod.mk.injEq] at hpair
              obtain ⟨rfl, rfl⟩ := hpair
              have hSK := ih t2 s2 r2x (by simp at hl ⊢; omega) hscan
              intro r3
              simp only [List.cons_append]
              simp [scanJsonString, scanJsonEsc, hesc, hSK r3]
            · rw [if_neg hesc] at h
              by_cases h117 : c = 117
              · rw [if_pos h117] at h
                rcases t2 with _ | ⟨h1, _ | ⟨h2, _ | ⟨h3, _ | ⟨h4, t3⟩⟩⟩⟩
                · simp [scanJsonHex4] at h
                · simp [scanJsonHex4] at h
                · simp [scanJsonHex4] at h
                · simp [scanJsonHex4] at h
                · simp only [scanJsonHex4] at h
                  by_cases hex : (isHexByte h1 && isHexByte h2 && isHexByte h3
                      && isHexByte h4) = true
                  · rw [if_pos hex] at h
                    rw [Option.map_eq_some'] at h
                    obtain ⟨⟨s3, r3x⟩, hscan, hpair⟩ := h
                    rw [Prod.mk.injEq] at hpair
                    obtain ⟨rfl, rfl⟩ := hpair
                    have hSK := ih t3 s3 r3x (by simp at hl ⊢; omega) hscan
                    subst h117
                    intro r4
                    simp only [List.cons_append]
                    simp [scanJsonString, scanJsonEsc, scanJsonHex4,
                      show jsonEscByte 117 = false from by decide, hex, hSK r4]
                  · rw [if_neg hex] at h
                    simp at h
              · rw [if_neg h117] at h
                simp at h
        · rw [if_neg hb92] at h
          by_cases hlt : b < 32
          · rw [if_pos hlt] at h; simp at h
          · rw [if_neg hlt] at h
            rw [Option.map_eq_some'] at h
            obtain ⟨⟨s2, r2x⟩, hscan, hpair⟩ := h
            rw [Prod.mk.injEq] at hpair
            obtain ⟨rfl, rfl⟩ := hpair
            have hSK := ih t s2 r2x (by simp at hl ⊢; omega) hscan
            intro r3
            simp only [List.cons_append]
            simp [scanJsonString, hb34, hb92, hlt, hSK r3]

theorem scanJsonString_SK {l s r : List Nat} (h : scanJsonString l = some (s, r)) :
    SK s :=
  scanJsonString_reparse_aux l.length l s r le_rfl h
theorem scanJsonNat_reparse {l s r : List Nat} (h : scanJsonNat l = some (s, r)) :
    (∃ b t, s = b :: t ∧ 48 ≤ b ∧ b ≤ 57) ∧
    ∀ q, (∀ b t, q = b :: t → isDigitByte b = false) →
      scanJsonNat (s ++ q) = some (s, q) := by
  cases l with
  | nil => simp [scanJsonNat] at h
  | cons b t =>
    simp only [scanJsonNat] at h
    by_cases hb48 : b = 48
    · rw [if_pos hb48] at h
      rw [Option.some.injEq, Prod.mk.injEq] at h
      obtain ⟨rfl, rfl⟩ := h
      refine ⟨⟨48, [], rfl, by omega, by omega⟩, ?_⟩
      intro q hq
      simp [scanJsonNat]
    · rw [if_neg hb48] at h
      by_cases hbd : 49 ≤ b ∧ b ≤ 57
      · rw [if_pos hbd] at h
        rw [Option.some.injEq, Prod.mk.injEq] at h
        obtain ⟨rfl, rfl⟩ := h
        refine ⟨⟨b, _, rfl, by omega, by omega⟩, ?_⟩
        intro q hq
        have hd := digits_decomp (t.takeWhile isDigitByte) q (takeWhile_digits t) hq
        simp only [List.cons_append]
        simp [scanJsonNat, hb48, hbd, hd.1, hd.2]
      · rw [if_neg hbd] at h
        simp at h

theorem scanJsonNumber_reparse {l s r : List Nat}
    (h : scanJsonNumber l = some (s, r)) :
    (∃ b t, s = b :: t ∧ (b = 45 ∨ (48 ≤ b ∧ b ≤ 57))) ∧
    ∀ q, (∀ b t, q = b :: t → isDigitByte b = false) →
      scanJsonNumber (s ++ q) = some (s, q) := by
  cases l with
  | nil => simp [scanJsonNumber] at h
  | cons b t =>
    simp only [scanJsonNumber] at h
    by_cases hb : b = 45
    · rw [if_pos hb] at h
      rw [Option.map_eq_some'] at h
      obtain ⟨⟨s1, r1⟩, hnat, hpair⟩ := h
      rw [Prod.mk.injEq] at hpair
      obtain ⟨rfl, rfl⟩ := hpair
      obtain ⟨hshape, hrep⟩ := scanJsonNat_reparse hnat
      refine ⟨⟨45, s1, rfl, Or.inl rfl⟩, ?_⟩
      intro q hq
      simp only [List.cons_append]
      simp [scanJsonNumber, hrep q hq]
    · rw [if_neg hb] at h
      obtain ⟨⟨b1, t1, hs1, hd1, hd2⟩, hrep⟩ := scanJsonNat_reparse h
      refine ⟨⟨b1, t1, hs1, Or.inr ⟨hd1, hd2⟩⟩, ?_⟩
      intro q hq
      subst hs1
      have hb145 : ¬ b1 = 45 := by omega
      simp only [List.cons_append]
      simp only [scanJsonNumber, hb145, if_neg, ite_false]
      rw [show (b1 :: (t1 ++ q)) = (b1 :: t1) ++ q from by simp]
      exact hrep q hq
theorem scanJsonFrac_reparse {l s r : List Nat}
    (h : scanJsonFrac l = some (s, r)) :
    (s = [] ∨ ∃ u, s = 46 :: u) ∧
    ∀ q, (∀ b t, q = b :: t → isDigitByte b = false ∧ b ≠ 46) →
      scanJsonFrac (s ++ q) = some (s, q) := by
  cases l with
  | nil =>
    simp only [scanJsonFrac, Option.some.injEq, Prod.mk.injEq] at h
    obtain ⟨rfl, rfl⟩ := h
    refine ⟨Or.inl rfl, ?_⟩
    intro q hq
    cases q with
    | nil => simp [scanJsonFrac]
    | cons b t => simp [scanJsonFrac, (hq b t rfl).2]
  | cons b t =>
    simp only [scanJsonFrac] at h
    by_cases hb : b = 46
    · rw [if_pos hb] at h
      cases htw : t.takeWhile isDigitByte with
      | nil => rw [htw] at h; simp at h
      | cons d ds =>
        rw [htw] at h
        simp only [Option.some.injEq, Prod.mk.injEq] at h
        obtain ⟨rfl, rfl⟩ := h
        refine ⟨Or.inr ⟨d :: ds, rfl⟩, ?_⟩
        intro q hq
        have hdig : ∀ x ∈ d :: ds, isDigitByte x = true := by
          rw [← htw]; exact takeWhile_digits t
        have hd := digits_decomp (d :: ds) q hdig (fun b t h => (hq b t h).1)
        simp only [List.cons_append] at hd ⊢
        simp [scanJsonFrac, hd.1, hd.2]
    · rw [if_neg hb] at h
      simp only [Option.some.injEq, Prod.mk.injEq] at h
      obtain ⟨rfl, rfl⟩ := h
      refine ⟨Or.inl rfl, ?_⟩
      intro q hq
      cases q with
      | nil => simp [scanJsonFrac]
      | cons b2 t2 => simp [scanJsonFrac, (hq b2 t2 rfl).2]

theorem scanExpDigits_reparse {b : Nat} {sg tt s r : List Nat}
    (hb : b = 101 ∨ b = 69)
    (hsg : sg = [] ∨ sg = [43] ∨ sg = [45])
    (h : scanExpDigits b sg tt = some (s, r)) :
    (∃ u, s = b :: u) ∧
    ∀ q, (∀ bb t3, q = bb :: t3 →
        isDigitByte bb = false ∧ bb ≠ 101 ∧ bb ≠ 69) →
      scanJsonExp (s ++ q) = some (s, q) := by
  simp only [scanExpDigits] at h
  cases htw : tt.takeWhile isDigitByte with
  | nil => rw [htw] at h; simp at h
  | cons d ds =>
    rw [htw] at h
    simp only [Option.some.injEq, Prod.mk.injEq] at h
    obtain ⟨rfl, rfl⟩ := h
    have hdig : ∀ x ∈ d :: ds, isDigitByte x = true := by
      rw [← htw]; exact takeWhile_digits tt
    have hdd := hdig d (by simp)
    refine ⟨⟨_, rfl⟩, ?_⟩
    intro q hq
    have hd := digits_decomp (d :: ds) q hdig (fun x y hxy => (hq x y hxy).1)
    simp only [List.cons_append] at hd
    rcases hsg with rfl | rfl | rfl
    · simp only [List.nil_append, List.cons_append]
      simp only [scanJsonExp, if_pos hb]
      simp [scanExpDigits,
        show ¬ d = 43 from by simp [isDigitByte] at hdd; omega,
        show ¬ d = 45 from by simp [isDigitByte] at hdd; omega,
        hd.1, hd.2]
    · simp only [List.cons_append, List.singleton_append]
      simp only [scanJsonExp, if_pos hb]
      simp [scanExpDigits, hd.1, hd.2]
    · simp only [List.cons_append, List.singleton_append]
      simp only [scanJsonExp, if_pos hb]
      simp [scanExpDigits, hd.1, hd.2]

theorem scanJsonExp_reparse {l s r : List Nat}
    (h : scanJsonExp l = some (s, r)) :
    (s = [] ∨ ∃ b u, s = b :: u ∧ (b = 101 ∨ b = 69)) ∧
    ∀ q, (∀ b t, q = b :: t → isDigitByte b = false ∧ b ≠ 101 ∧ b ≠ 69) →
      scanJsonExp (s ++ q) = some (s, q) := by
  have hnilrep : ∀ q, (∀ b t, q = b :: t →
      isDigitByte b = false ∧ b ≠ 101 ∧ b ≠ 69) →
      scanJsonExp q = some ([], q) := by
    intro q hq
    cases q with
    | nil => simp [scanJsonExp]
    | cons b2 t2 =>
      have := hq b2 t2 rfl
      simp [scanJsonExp, show ¬(b2 = 101 ∨ b2 = 69) from by omega]
  cases l with
  | nil =>
    simp only [scanJsonExp, Option.some.injEq, Prod.mk.injEq] at h
    obtain ⟨rfl, rfl⟩ := h
    exact ⟨Or.inl rfl, fun q hq => hnilrep q hq⟩
  | cons b t =>
    by_cases hb : b = 101 ∨ b = 69
    · cases t with
      | nil => simp [scanJsonExp, hb] at h
      | cons c t2 =>
        simp only [scanJsonExp, if_pos hb] at h
        by_cases hc43 : c = 43
        · rw [if_pos hc43] at h
          obtain ⟨⟨u, hs⟩, hrep⟩ :=
            scanExpDigits_reparse hb (Or.inr (Or.inl rfl)) h
          exact ⟨Or.inr ⟨b, u, hs, hb⟩, hrep⟩
        · rw [if_neg hc43] at h
          by_cases hc45 : c = 45
          · rw [if_pos hc45] at h
            obtain ⟨⟨u, hs⟩, hrep⟩ :=
              scanExpDigits_reparse hb (Or.inr (Or.inr rfl)) h
            exact ⟨Or.inr ⟨b, u, hs, hb⟩, hrep⟩
          · rw [if_neg hc45] at h
            obtain ⟨⟨u, hs⟩, hrep⟩ := scanExpDigits_reparse hb (Or.inl rfl) h
            exact ⟨Or.inr ⟨b, u, hs, hb⟩, hrep⟩
    · simp only [scanJsonExp, if_neg hb, Option.some.injEq, Prod.mk.injEq] at h
      obtain ⟨rfl, rfl⟩ := h
      exact ⟨Or.inl rfl, fun q hq => hnilrep q hq⟩
theorem scanJsonNumberFull_reparse {l s r : List Nat}
    (h : scanJsonNumberFull l = some (s, r)) :
    (∃ b t, s = b :: t ∧ (b = 45 ∨ (48 ≤ b ∧ b ≤ 57))) ∧
    ∀ q, numRest q → scanJsonNumberFull (s ++ q) = some (s, q) := by
  simp only [scanJsonNumberFull] at h
  cases h1 : scanJsonNumber l with
  | none => rw [h1] at h; simp at h
  | some p1 =>
    obtain ⟨s1, r1⟩ := p1
    rw [h1] at h
    simp only [] at h
    cases h2 : scanJsonFrac r1 with
    | none => rw [h2] at h; simp at h
    | some p2 =>
      obtain ⟨s2, r2⟩ := p2
      rw [h2] at h
      simp only [] at h
      cases h3 : scanJsonExp r2 with
      | none => rw [h3] at h; simp at h
      | some p3 =>
        obtain ⟨s3, r3⟩ := p3
        rw [h3] at h
        simp only [Option.some.injEq, Prod.mk.injEq] at h
        obtain ⟨rfl, rfl⟩ := h
        obtain ⟨⟨b1, t1, hs1, hb1⟩, hrep1⟩ := scanJsonNumber_reparse h1
        obtain ⟨hshape2, hrep2⟩ := scanJsonFrac_reparse h2
        obtain ⟨hshape3, hrep3⟩ := scanJsonExp_reparse h3
        constructor
        · exact ⟨b1, t1 ++ s2 ++ s3, by simp [hs1], hb1⟩
        · intro q hq
          have hqh : ∀ b t, q = b :: t →
              isDigitByte b = false ∧ b ≠ 46 ∧ b ≠ 101 ∧ b ≠ 69 := by
            intro b t hbt
            subst hbt
            simpa [numRest] using hq
          have c3 : ∀ b t, q = b :: t →
              isDigitByte b = false ∧ b ≠ 101 ∧ b ≠ 69 := by
            intro b t hbt
            have := hqh b t hbt
            exact ⟨this.1, this.2.2.1, this.2.2.2⟩
          have c2 : ∀ b t, s3 ++ q = b :: t →
              isDigitByte b = false ∧ b ≠ 46 := by
            intro b t hbt
            rcases hshape3 with h3n | ⟨b3, u3, hs3, hb3⟩
            · subst h3n
              simp only [List.nil_append] at hbt
              have := hqh b t hbt
              exact ⟨this.1, this.2.1⟩
            · subst hs3
              simp only [List.cons_append, List.cons.injEq] at hbt
              obtain ⟨rfl, _⟩ := hbt
              constructor
              · simp [isDigitByte]; omega
              · omega
          have c1 : ∀ b t, s2 ++ (s3 ++ q) = b :: t →
              isDigitByte b = false := by
            intro b t hbt
            rcases hshape2 with h2n | ⟨u2, hs2⟩
            · subst h2n
              simp only [List.nil_append] at hbt
              exact (c2 b t hbt).1
            · subst hs2
              simp only [List.cons_append, List.cons.injEq] at hbt
              obtain ⟨rfl, _⟩ := hbt
              simp [isDigitByte]
          have e1 := hrep1 (s2 ++ (s3 ++ q)) c1
          have e2 := hrep2 (s3 ++ q) c2
          have e3 := hrep3 q c3
          rw [show (s1 ++ s2 ++ s3) ++ q = s1 ++ (s2 ++ (s3 ++ q)) from by simp]
          simp only [scanJsonNumberFull, e1]
          simp only [e2, e3]
theorem okRest_cons {b : Nat} {t : List Nat} (h : okRest (b :: t)) :
    b = 44 ∨ b = 93 ∨ b = 125 := h

theorem RV_jnull : RV .jnull := by
  constructor
  · exact ⟨110, _, rfl, by decide, by decide, by decide⟩
  · intro g r hg hr
    simp only [jsize] at hg
    cases g with
    | zero => omega
    | succ g =>
      simp only [jsonPrint, List.cons_append]
      simp only [parseJsonValue]
      rw [skipJsonWs_cons 110 _ (by decide)]
      simp [List.isPrefixOf, List.drop]
theorem RV_jbool (b : Bool) : RV (.jbool b) := by
  constructor
  · cases b
    · exact ⟨102, _, rfl, by decide, by decide, by decide⟩
    · exact ⟨116, _, rfl, by decide, by decide, by decide⟩
  · intro g r hg hr
    simp only [jsize] at hg
    cases g with
    | zero => omega
    | succ g =>
      cases b
      · simp only [jsonPrint, List.cons_append]
        simp only [parseJsonValue]
        rw [skipJsonWs_cons 102 _ (by decide)]
        simp [List.isPrefixOf, List.drop]
      · simp only [jsonPrint, List.cons_append]
        simp only [parseJsonValue]
        rw [skipJsonWs_cons 116 _ (by decide)]
        simp [List.isPrefixOf, List.drop]

theorem RV_jstr (s : List Nat) (hSK : SK s) : RV (.jstr s) := by
  constructor
  · exact ⟨34, _, rfl, by decide, by decide, by decide⟩
  · intro g r hg hr
    simp only [jsize] at hg
    cases g with
    | zero => omega
    | succ g =>
      simp only [jsonPrint, List.cons_append]
      simp only [parseJsonValue]
      rw [skipJsonWs_cons 34 _ (by decide)]
      have : (s ++ [34]) ++ r = s ++ 34 :: r := by simp
      simp [this, hSK r]

theorem RV_jnum (s : List Nat)
    (hhead : ∃ b t, s = b :: t ∧ (b = 45 ∨ (48 ≤ b ∧ b ≤ 57)))
    (hrep : ∀ q, numRest q → scanJsonNumberFull (s ++ q) = some (s, q)) :
    RV (.jnum s) := by
  obtain ⟨b, t, rfl, hb⟩ := hhead
  have hws : jsonWs b = false := by
    simp [jsonWs]
    omega
  constructor
  · exact ⟨b, t, rfl, hws, by omega, by omega⟩
  · intro g r hg hr
    simp only [jsize] at hg
    cases g with
    | zero => omega
    | succ g =>
      have hnum : numRest r := by
        cases r with
        | nil => trivial
        | cons b2 t2 =>
          have := okRest_cons hr
          refine ⟨by simp [isDigitByte]; omega, by omega, by omega, by omega⟩
      simp only [jsonPrint, List.cons_append]
      simp only [parseJsonValue]
      rw [skipJsonWs_cons b _ hws]
      have hb110 : ¬ b = 110 := by omega
      have hb116 : ¬ b = 116 := by omega
      have hb102 : ¬ b = 102 := by omega
      have hb34 : ¬ b = 34 := by omega
      have hb91 : ¬ b = 91 := by omega
      have hb123 : ¬ b = 123 := by omega
      simp only [hb110, hb116, hb102, hb34, hb91, hb123, if_neg, ite_false]
      rw [show (b :: (t ++ r)) = (b :: t) ++ r from by simp]
      rw [hrep r hnum]
      rfl
theorem parseJsonItems_reparse (xs : List JVal) :
    xs ≠ [] → RVI xs →
    ∀ acc g r, jsizeItems xs ≤ g → okRest r →
      parseJsonItems g (jsonPrintItems xs ++ 93 :: r) acc =
        some (.jarr (acc ++ xs), r) := by
  induction xs with
  | nil => intro h; exact absurd rfl h
  | cons x xs ih =>
    intro _ hwf acc g r hg hr
    have hx : RV x := hwf x (by simp)
    have hgx : jsizeItems (x :: xs) = 1 + jsize x + jsizeItems xs := rfl
    cases g with
    | zero =>
      exfalso
      have := jsize_pos x
      omega
    | succ g =>
      rw [parseJsonItems]
      cases xs with
      | nil =>
        have h1 : jsonPrintItems [x] = jsonPrint x := rfl
        rw [h1]
        rw [hx.2 g (93 :: r)
          (by simp only [hgx, jsizeItems] at hg; omega)
          (Or.inr (Or.inl rfl))]
        simp only []
        rw [skipJsonWs_cons 93 r (by decide)]
        simp
      | cons y ys =>
        have h1 : jsonPrintItems (x :: y :: ys) =
            jsonPrint x ++ 44 :: jsonPrintItems (y :: ys) := rfl
        rw [h1]
        rw [show (jsonPrint x ++ 44 :: jsonPrintItems (y :: ys)) ++ 93 :: r =
          jsonPrint x ++ (44 :: (jsonPrintItems (y :: ys) ++ 93 :: r)) from by
            simp]
        rw [hx.2 g (44 :: (jsonPrintItems (y :: ys) ++ 93 :: r))
          (by simp only [hgx] at hg; omega) (Or.inl rfl)]
        simp only []
        rw [skipJsonWs_cons 44 _ (by decide)]
        simp only [if_pos rfl]
        rw [ih (by simp) (fun z hz => hwf z (by simp [hz])) (acc ++ [x]) g r
          (by simp only [hgx] at hg; omega) hr]
        simp
theorem parseJsonMembers_reparse (kvs : List (List Nat × JVal)) :
    kvs ≠ [] → RVM kvs →
    ∀ acc g r, jsizeMembers kvs ≤ g → okRest r →
      parseJsonMembers g (jsonPrintMembers kvs ++ 125 :: r) acc =
        some (.jobj (acc ++ kvs), r) := by
  induction kvs with
  | nil => intro h; exact absurd rfl h
  | cons kv kvs ih =>
    obtain ⟨k, v⟩ := kv
    intro _ hwf acc g r hg hr
    obtain ⟨hk0, hv0⟩ := hwf (k, v) (by simp)
    have hk : SK k := hk0
    have hv : RV v := hv0
    have hgx : jsizeMembers ((k, v) :: kvs) = 1 + jsize v + jsizeMembers kvs :=
      rfl
    cases g with
    | zero =>
      exfalso
      have := jsize_pos v
      omega
    | succ g =>
      rw [parseJsonMembers]
      cases kvs with
      | nil =>
        have h1 : jsonPrintMembers [(k, v)] =
            34 :: k ++ 34 :: 58 :: jsonPrint v := rfl
        rw [h1]
        rw [show (34 :: k ++ 34 :: 58 :: jsonPrint v) ++ 125 :: r =
          34 :: (k ++ 34 :: (58 :: (jsonPrint v ++ 125 :: r))) from by simp]
        rw [skipJsonWs_cons 34 _ (by decide)]
        simp only [if_pos rfl]
        rw [hk (58 :: (jsonPrint v ++ 125 :: r))]
        simp only []
        rw [skipJsonWs_cons 58 _ (by decide)]
        simp only [if_pos rfl]
        rw [hv.2 g (125 :: r)
          (by
            rw [hgx] at hg
            have h0 : jsizeMembers ([] : List (List Nat × JVal)) = 1 := rfl
            rw [h0] at hg
            omega)
          (Or.inr (Or.inr rfl))]
        simp only []
        rw [skipJsonWs_cons 125 r (by decide)]
        simp
      | cons kv2 kvs2 =>
        have h1 : jsonPrintMembers ((k, v) :: kv2 :: kvs2) =
            34 :: k ++ 34 :: 58 :: jsonPrint v ++
              44 :: jsonPrintMembers (kv2 :: kvs2) := rfl
        rw [h1]
        rw [show (34 :: k ++ 34 :: 58 :: jsonPrint v ++
            44 :: jsonPrintMembers (kv2 :: kvs2)) ++ 125 :: r =
          34 :: (k ++ 34 :: (58 :: (jsonPrint v ++
            44 :: (jsonPrintMembers (kv2 :: kvs2) ++ 125 :: r)))) from by simp]
        rw [skipJsonWs_cons 34 _ (by decide)]
        simp only [if_pos rfl]
        rw [hk (58 :: (jsonPrint v ++
          44 :: (jsonPrintMembers (kv2 :: kvs2) ++ 125 :: r)))]
        simp only []
        rw [skipJsonWs_cons 58 _ (by decide)]
        simp only [if_pos rfl]
        rw [hv.2 g (44 :: (jsonPrintMembers (kv2 :: kvs2) ++ 125 :: r))
          (by rw [hgx] at hg; omega) (Or.inl rfl)]
        simp only []
        rw [skipJsonWs_cons 44 _ (by decide)]
        simp only [if_pos rfl]
        rw [ih (by simp) (fun p hp => hwf p (by simp [hp])) (acc ++ [(k, v)])
          g r (by simp only [hgx] at hg; omega) hr]
        simp
theorem RV_jarr (xs : List JVal) (h : RVI xs) : RV (.jarr xs) := by
  constructor
  · exact ⟨91, _, rfl, by decide, by decide, by decide⟩
  · intro g r hg hr
    have hsz : jsize (.jarr xs) = 1 + jsizeItems xs := rfl
    cases g with
    | zero => rw [hsz] at hg; omega
    | succ g =>
      simp only [jsonPrint, List.cons_append]
      simp only [parseJsonValue]
      rw [skipJsonWs_cons 91 _ (by decide)]
      simp only [show ¬ (91 : Nat) = 110 from by decide,
        show ¬ (91 : Nat) = 116 from by decide,
        show ¬ (91 : Nat) = 102 from by decide,
        show ¬ (91 : Nat) = 34 from by decide, if_neg, ite_false, if_pos rfl,
        ite_true]
      rw [show (jsonPrintItems xs ++ [93]) ++ r =
        jsonPrintItems xs ++ 93 :: r from by simp]
      cases xs with
      | nil =>
        rw [show jsonPrintItems [] = [] from rfl, List.nil_append]
        rw [skipJsonWs_cons 93 r (by decide)]
        simp
      | cons x xs2 =>
        obtain ⟨b, tb, hpr, hws, h93, _⟩ := (h x (by simp)).1
        have hhead : jsonPrintItems (x :: xs2) ++ 93 :: r =
            b :: (tb ++ (if xs2.isEmpty then [] else
              44 :: jsonPrintItems xs2) ++ 93 :: r) := by
          cases xs2 with
          | nil => simp [jsonPrintItems, hpr]
          | cons y ys => simp [jsonPrintItems, hpr]
        rw [hhead, skipJsonWs_cons b _ hws]
        simp only [if_neg h93]
        rw [← hhead]
        rw [parseJsonItems_reparse (x :: xs2) (by simp) h [] g r
          (by rw [hsz] at hg; omega) hr]
        simp

theorem RV_jobj (kvs : List (List Nat × JVal)) (h : RVM kvs) :
    RV (.jobj kvs) := by
  constructor
  · exact ⟨123, _, rfl, by decide, by decide, by decide⟩
  · intro g r hg hr
    have hsz : jsize (.jobj kvs) = 1 + jsizeMembers kvs := rfl
    cases g with
    | zero => rw [hsz] at hg; omega
    | succ g =>
      simp only [jsonPrint, List.cons_append]
      simp only [parseJsonValue]
      rw [skipJsonWs_cons 123 _ (by decide)]
      simp only [show ¬ (123 : Nat) = 110 from by decide,
        show ¬ (123 : Nat) = 116 from by decide,
        show ¬ (123 : Nat) = 102 from by decide,
        show ¬ (123 : Nat) = 34 from by decide,
        show ¬ (123 : Nat) = 91 from by decide, if_neg, ite_false, if_pos rfl,
        ite_true]
      rw [show (jsonPrintMembers kvs ++ [125]) ++ r =
        jsonPrintMembers kvs ++ 125 :: r from by simp]
      cases kvs with
      | nil =>
        rw [show jsonPrintMembers [] = [] from rfl, List.nil_append]
        rw [skipJsonWs_cons 125 r (by decide)]
        simp
      | cons kv kvs2 =>
        obtain ⟨k, v⟩ := kv
        have hhead : ∃ tb, jsonPrintMembers ((k, v) :: kvs2) ++ 125 :: r =
            34 :: tb := by
          cases kvs2 with
          | nil =>
            exact ⟨k ++ 34 :: 58 :: (jsonPrint v ++ 125 :: r),
              by simp [jsonPrintMembers]⟩
          | cons kv2 kvs3 =>
            exact ⟨k ++ 34 :: 58 :: (jsonPrint v ++
              44 :: (jsonPrintMembers (kv2 :: kvs3) ++ 125 :: r)),
              by simp [jsonPrintMembers]⟩
        obtain ⟨tb, htb⟩ := hhead
        rw [htb, skipJsonWs_cons 34 _ (by decide)]
        simp only [show ¬ (34 : Nat) = 125 from by decide, if_neg, ite_false]
        rw [← htb]
        rw [parseJsonMembers_reparse ((k, v) :: kvs2) (by simp) h [] g r
          (by rw [hsz] at hg; omega) hr]
        simp
theorem parse_sound : ∀ fuel : Nat,
    (∀ l v r, parseJsonValue fuel l = some (v, r) → RV v) ∧
    (∀ l acc v r, parseJsonItems fuel l acc = some (v, r) →
      ∃ ys, ys ≠ [] ∧ RVI ys ∧ v = .jarr (acc ++ ys)) ∧
    (∀ l acc v r, parseJsonMembers fuel l acc = some (v, r) →
      ∃ ms, ms ≠ [] ∧ RVM ms ∧ v = .jobj (acc ++ ms)) := by
  intro fuel
  induction fuel with
  | zero =>
    refine ⟨?_, ?_, ?_⟩
    · intro l v r h; simp [parseJsonValue] at h
    · intro l acc v r h; simp [parseJsonItems] at h
    · intro l acc v r h; simp [parseJsonMembers] at h
  | succ fuel ih =>
    obtain ⟨ihA, ihB, ihC⟩ := ih
    refine ⟨?_, ?_, ?_⟩
    · intro l v r h
      rw [parseJsonValue] at h
      cases hsk : skipJsonWs l with
      | nil => rw [hsk] at h; simp at h
      | cons b t =>
        rw [hsk] at h
        simp only [] at h
        by_cases h110 : b = 110
        · rw [if_pos h110] at h
          split at h
          · simp only [Option.some.injEq, Prod.mk.injEq] at h
            obtain ⟨rfl, rfl⟩ := h.symm
            exact RV_jnull
          · simp at h
        · rw [if_neg h110] at h
          by_cases h116 : b = 116
          · rw [if_pos h116] at h
            split at h
            · simp only [Option.some.injEq, Prod.mk.injEq] at h
              obtain ⟨rfl, rfl⟩ := h.symm
              exact RV_jbool true
            · simp at h
          · rw [if_neg h116] at h
            by_cases h102 : b = 102
            · rw [if_pos h102] at h
              split at h
              · simp only [Option.some.injEq, Prod.mk.injEq] at h
                obtain ⟨rfl, rfl⟩ := h.symm
                exact RV_jbool false
              · simp at h
            · rw [if_neg h102] at h
              by_cases h34 : b = 34
              · rw [if_pos h34] at h
                rw [Option.map_eq_some'] at h
                obtain ⟨⟨s2, r2⟩, hscan, hpair⟩ := h
                rw [Prod.mk.injEq] at hpair
                obtain ⟨rfl, rfl⟩ := hpair.symm
                exact RV_jstr s2 (scanJsonString_SK hscan)
              · rw [if_neg h34] at h
                by_cases h91 : b = 91
                · rw [if_pos h91] at h
                  cases hsk2 : skipJsonWs t with
                  | nil =>
                    rw [hsk2] at h
                    simp only [] at h
                    obtain ⟨ys, hne, hwf, rfl⟩ := ihB t [] _ r h
                    exact RV_jarr ys (by simpa using hwf)
                  | cons b2 t2 =>
                    rw [hsk2] at h
                    simp only [] at h
                    by_cases h93 : b2 = 93
                    · rw [if_pos h93] at h
                      simp only [Option.some.injEq, Prod.mk.injEq] at h
                      obtain ⟨rfl, rfl⟩ := h.symm
                      exact RV_jarr [] (by intro x hx; simp at hx)
                    · rw [if_neg h93] at h
                      obtain ⟨ys, hne, hwf, rfl⟩ := ihB t [] _ r h
                      exact RV_jarr ys (by simpa using hwf)
                · rw [if_neg h91] at h
                  by_cases h123 : b = 123
                  · rw [if_pos h123] at h
                    cases hsk2 : skipJsonWs t with
                    | nil =>
                      rw [hsk2] at h
                      simp only [] at h
                      obtain ⟨ms, hne, hwf, rfl⟩ := ihC t [] _ r h
                      exact RV_jobj ms (by simpa using hwf)
                    | cons b2 t2 =>
                      rw [hsk2] at h
                      simp only [] at h
                      by_cases h125 : b2 = 125
                      · rw [if_pos h125] at h
                        simp only [Option.some.injEq, Prod.mk.injEq] at h
                        obtain ⟨rfl, rfl⟩ := h.symm
                        exact RV_jobj [] (by intro x hx; simp at hx)
                      · rw [if_neg h125] at h
                        obtain ⟨ms, hne, hwf, rfl⟩ := ihC t [] _ r h
                        exact RV_jobj ms (by simpa using hwf)
                  · rw [if_neg h123] at h
                    rw [Option.map_eq_some'] at h
                    obtain ⟨⟨s2, r2⟩, hscan, hpair⟩ := h
                    rw [Prod.mk.injEq] at hpair
                    obtain ⟨rfl, rfl⟩ := hpair.symm
                    obtain ⟨hshape, hrep⟩ := scanJsonNumberFull_reparse hscan
                    exact RV_jnum s2 hshape hrep
    · intro l acc v r h
      rw [parseJsonItems] at h
      cases hpv : parseJsonValue fuel l with
      | none => rw [hpv] at h; simp at h
      | some p =>
        obtain ⟨v0, r0⟩ := p
        rw [hpv] at h
        simp only [] at h
        have hRV0 : RV v0 := ihA l v0 r0 hpv
        cases hsk : skipJsonWs r0 with
        | nil => rw [hsk] at h; simp at h
        | cons b t =>
          rw [hsk] at h
          simp only [] at h
          by_cases hb44 : b = 44
          · rw [if_pos hb44] at h
            obtain ⟨ys, hne, hwf, rfl⟩ := ihB t (acc ++ [v0]) _ r h
            refine ⟨v0 :: ys, by simp, ?_, by simp⟩
            intro x hx
            rcases List.mem_cons.mp hx with rfl | hx2
            · exact hRV0
            · exact hwf x hx2
          · rw [if_neg hb44] at h
            by_cases hb93 : b = 93
            · rw [if_pos hb93] at h
              simp only [Option.some.injEq, Prod.mk.injEq] at h
              obtain ⟨rfl, rfl⟩ := h.symm
              refine ⟨[v0], by simp, ?_, rfl⟩
              intro x hx
              rcases List.mem_singleton.mp hx with rfl
              exact hRV0
            · rw [if_neg hb93] at h
              simp at h
    · intro l acc v r h
      rw [parseJsonMembers] at h
      cases hsk : skipJsonWs l with
      | nil => rw [hsk] at h; simp at h
      | cons b0 t =>
        rw [hsk] at h
        simp only [] at h
        by_cases hb34 : b0 = 34
        · rw [if_pos hb34] at h
          cases hscan : scanJsonString t with
          | none => rw [hscan] at h; simp at h
          | some p =>
            obtain ⟨k, r1⟩ := p
            rw [hscan] at h
            simp only [] at h
            have hSK : SK k := scanJsonString_SK hscan
            cases hsk2 : skipJsonWs r1 with
            | nil => rw [hsk2] at h; simp at h
            | cons b1 t2 =>
              rw [hsk2] at h
              simp only [] at h
              by_cases hb58 : b1 = 58
              · rw [if_pos hb58] at h
                cases hpv : parseJsonValue fuel t2 with
                | none => rw [hpv] at h; simp at h
                | some p2 =>
                  obtain ⟨v0, r2⟩ := p2
                  rw [hpv] at h
                  simp only [] at h
                  have hRV0 : RV v0 := ihA t2 v0 r2 hpv
                  cases hsk3 : skipJsonWs r2 with
                  | nil => rw [hsk3] at h; simp at h
                  | cons b2 t3 =>
                    rw [hsk3] at h
                    simp only [] at h
                    by_cases hb44 : b2 = 44
                    · rw [if_pos hb44] at h
                      obtain ⟨ms, hne, hwf, rfl⟩ :=
                        ihC t3 (acc ++ [(k, v0)]) _ r h
                      refine ⟨(k, v0) :: ms, by simp, ?_, by simp⟩
                      intro p hp
                      rcases List.mem_cons.mp hp with rfl | hp2
                      · exact ⟨hSK, hRV0⟩
                      · exact hwf p hp2
                    · rw [if_neg hb44] at h
                      by_cases hb125 : b2 = 125
                      · rw [if_pos hb125] at h
                        simp only [Option.some.injEq, Prod.mk.injEq] at h
                        obtain ⟨rfl, rfl⟩ := h.symm
                        refine ⟨[(k, v0)], by simp, ?_, rfl⟩
                        intro p hp
                        rcases List.mem_singleton.mp hp with rfl
                        exact ⟨hSK, hRV0⟩
                      · rw [if_neg hb125] at h
                        simp at h
              · rw [if_neg hb58] at h
                simp at h
        · rw [if_neg hb34] at h
          simp at h
mutual

theorem jsize_le : ∀ v : JVal, jsize v ≤ 2 * (jsonPrint v).length + 1
  | .jnull => by rw [jsize.eq_1, jsonPrint.eq_1]; simp
  | .jbool b => by
    cases b
    · rw [jsize.eq_2, jsonPrint.eq_3]; simp
    · rw [jsize.eq_2, jsonPrint.eq_2]; simp
  | .jnum s => by rw [jsize.eq_3, jsonPrint.eq_4]; omega
  | .jstr s => by rw [jsize.eq_4, jsonPrint.eq_5]; simp
  | .jarr xs => by
    have h := jsizeItems_le xs
    rw [jsize.eq_5, jsonPrint.eq_6]
    simp only [List.length_cons, List.length_append]
    omega
  | .jobj kvs => by
    have h := jsizeMembers_le kvs
    rw [jsize.eq_6, jsonPrint.eq_7]
    simp only [List.length_cons, List.length_append]
    omega

theorem jsizeItems_le : ∀ xs : List JVal,
    jsizeItems xs ≤ 2 * (jsonPrintItems xs).length + 3
  | [] => by rw [jsizeItems.eq_1, jsonPrintItems.eq_1]; simp
  | [x] => by
    have h := jsize_le x
    rw [jsizeItems.eq_2, jsizeItems.eq_1, jsonPrintItems.eq_2]
    omega
  | x :: y :: ys => by
    have h1 := jsize_le x
    have h2 := jsizeItems_le (y :: ys)
    rw [jsizeItems.eq_2, jsonPrintItems.eq_3 x (y :: ys) (by simp)]
    simp only [List.length_append, List.length_cons]
    omega

theorem jsizeMembers_le : ∀ kvs : List (List Nat × JVal),
    jsizeMembers kvs ≤ 2 * (jsonPrintMembers kvs).length + 3
  | [] => by rw [jsizeMembers.eq_1, jsonPrintMembers.eq_1]; simp
  | [kv] => by
    obtain ⟨k, v⟩ := kv
    have h := jsize_le v
    rw [jsizeMembers.eq_2, jsizeMembers.eq_1, jsonPrintMembers.eq_2]
    simp only [List.length_cons, List.length_append]
    omega
  | kv :: kv2 :: kvs => by
    obtain ⟨k, v⟩ := kv
    have h1 := jsize_le v
    have h2 := jsizeMembers_le (kv2 :: kvs)
    rw [jsizeMembers.eq_2, jsonPrintMembers.eq_3 k v (kv2 :: kvs) (by simp)]
    simp only [List.length_append, List.length_cons]
    omega

end

theorem jsonParse_print_roundtrip {l : List Nat} {v : JVal}
    (h : jsonParse l = some v) : jsonParse (jsonPrint v) = some v := by
  unfold jsonParse at h
  cases hp : parseJsonValue (2 * l.length + 4) l with
  | none => rw [hp] at h; simp at h
  | some p =>
    obtain ⟨v0, r⟩ := p
    rw [hp] at h
    simp only [] at h
    split at h
    · simp only [Option.some.injEq] at h
      subst h
      have hRV := (parse_sound (2 * l.length + 4)).1 l v0 r hp
      have hrep := hRV.2 (2 * (jsonPrint v0).length + 4) []
        (by have := jsize_le v0; omega) trivial
      rw [List.append_nil] at hrep
      unfold jsonParse
      rw [hrep]
      simp [skipJsonWs]
    · simp at h

/-- **C7**: for extension `json`/`jsonc` and an in-bounds input, `minify`
    strips comment residue with `stripJsonComment` and attempts a strict
    structural parse of the result: on success it returns the compact
    serialization `jsonPrint v`, and re-parsing that serialization yields a
    value deep-equal to `v` (the round-trip property); on parse failure it
    still returns (no error channel) the best-effort fallback that collapses
    every whitespace run of the comment-stripped text to a single space. -/
theorem minify_json_roundtrip (code extension : List Nat)
    (hsz : ¬ (code.length < 2 ∨ code.length > MAX_PROCESS_SIZE))
    (hext : normalizeExt extension = ascii "json" ∨
      normalizeExt extension = ascii "jsonc") :
    (∀ v, jsonParse (stripJsonComment
        (removeComments code (normalizeExt extension))) = some v →
      minifyCode code extension = jsonPrint v ∧
        jsonParse (jsonPrint v) = some v) ∧
    (jsonParse (stripJsonComment
        (removeComments code (normalizeExt extension))) = none →
      minifyCode code extension = joinSpace
        (removeComments code (normalizeExt extension))) := by
  have hpy : extIn (normalizeExt extension)
      ["py", "pyw", "yaml", "yml", "coffee", "sass", "pug", "haml"] = false := by
    rcases hext with h | h <;> rw [h] <;> decide
  have hjson : extIn (normalizeExt extension) ["json", "jsonc"] = true := by
    rcases hext with h | h <;> rw [h] <;> decide
  constructor
  · intro v hv
    constructor
    · rw [minifyCode, if_neg hsz]
      simp only [hpy, hjson, Bool.false_eq_true, if_false, if_true, hv]
    · exact jsonParse_print_roundtrip hv
  · intro hn
    rw [minifyCode, if_neg hsz]
    simp only [hpy, hjson, Bool.false_eq_true, if_false, if_true, hn]

theorem minify_json_roundtrip_witness :
    ((¬ ((ascii "\x7b \"a\": [1, 2], \"b\": null \x7d // x").length < 2 ∨
        (ascii "\x7b \"a\": [1, 2], \"b\": null \x7d // x").length >
          MAX_PROCESS_SIZE)) ∧
      (normalizeExt (ascii "json") = ascii "json" ∨
        normalizeExt (ascii "json") = ascii "jsonc")) ∧
    ((∀ v, jsonParse (stripJsonComment
        (removeComments (ascii "\x7b \"a\": [1, 2], \"b\": null \x7d // x")
          (normalizeExt (ascii "json")))) = some v →
      minifyCode (ascii "\x7b \"a\": [1, 2], \"b\": null \x7d // x")
          (ascii "json") = jsonPrint v ∧
        jsonParse (jsonPrint v) = some v) ∧
    (jsonParse (stripJsonComment
        (removeComments (ascii "\x7b \"a\": [1, 2], \"b\": null \x7d // x")
          (normalizeExt (ascii "json")))) = none →
      minifyCode (ascii "\x7b \"a\": [1, 2], \"b\": null \x7d // x")
          (ascii "json") = joinSpace
        (removeComments (ascii "\x7b \"a\": [1, 2], \"b\": null \x7d // x")
          (normalizeExt (ascii "json"))))) :=
  ⟨⟨by decide, by decide⟩,
   minify_json_roundtrip (ascii "\x7b \"a\": [1, 2], \"b\": null \x7d // x")
     (ascii "json") (by decide) (by decide)⟩

end Textractor
